import Mathlib

/-!
# go-qris: TLV codec, CRC-16 and checksum maintenance

A shallow embedding of `tlv.go`, `crc.go`, `types.go`, `qris_struct.go` and
the document operations of `qris.go` (the image and terminal wrappers are
left out), with the properties of the specification stated and proved over
it.

Conventions of the embedding:

* a Go `string` is an immutable sequence of bytes: `GoString := List Byte`;
  `len(s)` is `s.length`, `s[a:b]` is `(s.drop a).take (b - a)`;
* a Go `int` is an `Int`; `uint16` is a `Nat` reduced modulo `65536`; a `float64` is a
  `Float64`: a rational number, the negative zero, an infinity or NaN;
* a Go `[]TLV` is a `List TLV` (a nil slice and an empty slice are both `[]`);
* a Go function returning `(x, error)` returns `Except Failure x`, where
  `Failure` tells a returned `error` from a run-time panic.
-/

namespace Qris

/-! ## Strings -/

/-- One byte of a Go string. -/
abbrev Byte := Fin 256

/-- A Go string: a sequence of bytes. -/
abbrev GoString := List Byte

/-- The bytes of a string literal of the source (Go source text is UTF-8). -/
def bytes (s : String) : GoString :=
  (s.toList.flatMap String.utf8EncodeChar).map (fun b => b.val)

/-- Go's `s[a:b]` for `a ≤ b ≤ len(s)`. -/
def slice (s : GoString) (a b : Nat) : GoString := (s.drop a).take (b - a)

/-- Go's `a <= b` on strings: byte-wise lexicographic order. -/
def strLe : GoString → GoString → Bool
  | [], _ => true
  | _ :: _, [] => false
  | a :: as, b :: bs => if a.val < b.val then true else if b.val < a.val then false else strLe as bs

/-- The Go call `strings.HasPrefix(s, p)`. -/
def HasPrefix (s p : GoString) : Bool := p.isPrefixOf s

/-! ## The parts of the Go standard library the code calls -/

/-- The decimal digits of a natural number, most significant first, no leading zero
(`0` is rendered `"0"`). -/
def decimalDigits (n : Nat) : GoString :=
  (Nat.toDigits 10 n).map (fun c => Fin.ofNat c.toNat)

/-- The Go call `strconv.Itoa(n)`. -/
def Itoa (n : Int) : GoString :=
  if n < 0 then (45 : Byte) :: decimalDigits n.natAbs else decimalDigits n.natAbs

/-- The Go call `fmt.Sprintf("%02d", n)` for `n ≥ 0`: the decimal digits, padded on the left
with `'0'` to a width of at least two (a wider number is not truncated). -/
def Sprintf02d (n : Nat) : GoString :=
  List.replicate (2 - (decimalDigits n).length) (48 : Byte) ++ decimalDigits n

/-- A byte is an ASCII decimal digit (`ch -= '0'; ch > 9` fails in `strconv.Atoi`). -/
def isDigit (b : Byte) : Bool := 48 ≤ b.val && b.val ≤ 57

/-- The value of a run of decimal digits. -/
def digitsValue (s : GoString) : Nat := s.foldl (fun n b => n * 10 + (b.val - 48)) 0

/-- The Go call `strconv.Atoi(s)`, `none` when it returns an error: an optional sign `+` or
`-`, then at least one decimal digit and nothing else, the value within the range of `int`
(64 bits). -/
def Atoi (s : GoString) : Option Int :=
  match s with
  | [] => none
  | b :: r =>
    let neg : Bool := b.val = 45
    let body := if b.val = 45 ∨ b.val = 43 then r else s
    if body = [] then none
    else if body.all isDigit then
      let v : Int := if neg then -(digitsValue body : Int) else (digitsValue body : Int)
      if -(2 : Int) ^ 63 ≤ v ∧ v < (2 : Int) ^ 63 then some v else none
    else none

/-! ## tlv.go -/

/-- The Go struct `TLV`. -/
structure TLV where
  Tag : GoString
  Len : Int
  Value : GoString
  Sub : List TLV

mutual
/-- Decidable equality of fields. -/
def TLV.decEq : (a b : TLV) → Decidable (a = b)
  | ⟨t1, l1, v1, s1⟩, ⟨t2, l2, v2, s2⟩ =>
    if h1 : t1 = t2 then
      if h2 : l1 = l2 then
        if h3 : v1 = v2 then
          match TLV.decEqList s1 s2 with
          | isTrue h4 => isTrue (by rw [h1, h2, h3, h4])
          | isFalse h4 => isFalse (fun h => h4 (by injection h))
        else isFalse (fun h => h3 (by injection h))
      else isFalse (fun h => h2 (by injection h))
    else isFalse (fun h => h1 (by injection h))
/-- Decidable equality of field sequences. -/
def TLV.decEqList : (a b : List TLV) → Decidable (a = b)
  | [], [] => isTrue rfl
  | [], _ :: _ => isFalse (fun h => by injection h)
  | _ :: _, [] => isFalse (fun h => by injection h)
  | a :: as, b :: bs =>
    match TLV.decEq a b with
    | isTrue h1 =>
      match TLV.decEqList as bs with
      | isTrue h2 => isTrue (by rw [h1, h2])
      | isFalse h2 => isFalse (fun h => h2 (by injection h))
    | isFalse h1 => isFalse (fun h => h1 (by injection h))
end

instance : DecidableEq TLV := TLV.decEq

/-- How a call of `ParseTLV` can end without a field sequence. -/
inductive Failure where
  /-- The returned error `fmt.Errorf("invalid TLV segment at %d", i)`. -/
  | invalidSegment (i : Nat)
  /-- A run-time panic: the slice `s[i+4 : i+4+length]` with a negative `length`. -/
  | sliceBounds
  /-- The model ran out of fuel (never the case for `ParseTLV`, see `ParseTLV_ne_outOfFuel`). -/
  | outOfFuel
deriving DecidableEq, Repr

/-- Decidable equality of results. -/
instance instDecidableEqExcept {ε α : Type} [DecidableEq ε] [DecidableEq α] :
    DecidableEq (Except ε α)
  | .ok a, .ok b => if h : a = b then isTrue (by rw [h]) else isFalse (fun e => h (by injection e))
  | .error a, .error b =>
    if h : a = b then isTrue (by rw [h]) else isFalse (fun e => h (by injection e))
  | .ok _, .error _ => isFalse (fun e => by injection e)
  | .error _, .ok _ => isFalse (fun e => by injection e)

/-- The tag test `tag >= "26" && tag <= "51"` of `ParseTLV` and `MapToStruct`. -/
def inMerchantRange (tag : GoString) : Bool := strLe (bytes "26") tag && strLe tag (bytes "51")

/-- The assignment `sub, _ = ParseTLV(value)`: a returned error is dropped and leaves `sub`
the nil slice `ParseTLV` returns with it; a panic is not caught. -/
def dropError : Except Failure (List TLV) → Except Failure (List TLV)
  | .ok sub => .ok sub
  | .error (.invalidSegment _) => .ok []
  | .error e => .error e

/-- The loop of `ParseTLV`, with the part of the input not yet consumed as its state:
`rest` is `s[i:]`, for the loop variable `i` of the source. The recursive call
`ParseTLV(value)` starts again at index `0`. -/
def parseLoop : Nat → Nat → GoString → Except Failure (List TLV)
  | 0, _, _ => .error .outOfFuel
  | fuel + 1, i, rest =>
    if rest.length < 4 then .ok []
    else
      let tag := slice rest 0 2
      match Atoi (slice rest 2 4) with
      | none => .error (.invalidSegment i)
      | some length =>
        if (rest.length : Int) < 4 + length then .error (.invalidSegment i)
        else if length < 0 then .error .sliceBounds
        else
          let value := slice rest 4 (4 + length.toNat)
          let nested : Except Failure (List TLV) :=
            if inMerchantRange tag then dropError (parseLoop fuel 0 value) else .ok []
          match nested with
          | .error e => .error e
          | .ok sub =>
            match parseLoop fuel (i + 4 + length.toNat) (rest.drop (4 + length.toNat)) with
            | .error e => .error e
            | .ok more => .ok (⟨tag, length, value, sub⟩ :: more)

/-- The Go function `ParseTLV`. -/
def ParseTLV (s : GoString) : Except Failure (List TLV) := parseLoop (s.length + 1) 0 s

/-- The Go function `SerializeTLV`. -/
def SerializeTLV : List TLV → GoString
  | [] => []
  | tlv :: data => tlv.Tag ++ Sprintf02d tlv.Value.length ++ tlv.Value ++ SerializeTLV data

/-- The Go function `RemoveTLV`. -/
def RemoveTLV (data : List TLV) (tag : GoString) : List TLV :=
  data.filter (fun tlv => tlv.Tag ≠ tag)

/-- The Go function `RemoveTLVPrefix`. -/
def RemoveTLVPrefix (data : List TLV) (pre : GoString) : List TLV :=
  data.filter (fun tlv => !HasPrefix tlv.Tag pre)

/-! ## crc.go -/

/-- The constant `TagCRC` of types.go. -/
def TagCRC : GoString := bytes "63"

/-- One step of `for _, c := range payload` at the non-empty remainder `b0 :: rest` of the
string: the rune `c` and the number of bytes it takes. This is the UTF-8 decoding of the Go
language: an ASCII byte is its own rune, a well-formed sequence of two to four bytes is one
rune, and a byte that starts no well-formed sequence gives `0xFFFD` and takes one byte. -/
def decodeRune (b0 : Byte) (rest : GoString) : Nat × Nat :=
  let runeError : Nat × Nat := (0xFFFD, 1)
  let cont : Byte → Bool := fun b => 0x80 ≤ b.val && b.val ≤ 0xBF
  if b0.val < 0x80 then (b0.val, 1)
  else if 0xC0 ≤ b0.val && b0.val < 0xE0 then
    match rest with
    | b1 :: _ =>
      let r := ((b0.val &&& 0x1F) <<< 6) ||| (b1.val &&& 0x3F)
      if cont b1 && 0x7F < r then (r, 2) else runeError
    | _ => runeError
  else if 0xE0 ≤ b0.val && b0.val < 0xF0 then
    match rest with
    | b1 :: b2 :: _ =>
      let r := ((b0.val &&& 0x0F) <<< 12) ||| ((b1.val &&& 0x3F) <<< 6) ||| (b2.val &&& 0x3F)
      if cont b1 && cont b2 && 0x7FF < r && !(0xD800 ≤ r && r ≤ 0xDFFF) then (r, 3)
      else runeError
    | _ => runeError
  else if 0xF0 ≤ b0.val && b0.val < 0xF8 then
    match rest with
    | b1 :: b2 :: b3 :: _ =>
      let r := ((b0.val &&& 0x07) <<< 18) ||| ((b1.val &&& 0x3F) <<< 12)
        ||| ((b2.val &&& 0x3F) <<< 6) ||| (b3.val &&& 0x3F)
      if cont b1 && cont b2 && cont b3 && 0xFFFF < r && r ≤ 0x10FFFF then (r, 4)
      else runeError
    | _ => runeError
  else runeError

/-- The runes `for _, c := range s` visits, in order; `skip` counts the bytes still to pass
over because they belong to the rune decoded last. -/
def rangeRunes : Nat → GoString → List Nat
  | _, [] => []
  | skip + 1, _ :: rest => rangeRunes skip rest
  | 0, b0 :: rest => (decodeRune b0 rest).1 :: rangeRunes ((decodeRune b0 rest).2 - 1) rest

/-- One pass of the inner loop of `CalculateCRC` on the `uint16` register. -/
def crcShift (crc : Nat) : Nat :=
  if crc &&& 0x8000 ≠ 0 then ((crc <<< 1) % 65536) ^^^ 0x1021 else (crc <<< 1) % 65536

/-- The body of the outer loop of `CalculateCRC` for the rune `c`:
`crc ^= uint16(c) << 8`, eight passes of the inner loop, `crc &= 0xFFFF`. -/
def crcRune (crc c : Nat) : Nat :=
  (crcShift^[8] (crc ^^^ (((c % 65536) <<< 8) % 65536))) &&& 0xFFFF

/-- An upper-case hexadecimal digit. -/
def hexDigit (d : Nat) : Byte := if d < 10 then Fin.ofNat (48 + d) else Fin.ofNat (55 + d)

/-- The Go call `fmt.Sprintf("%04X", crc)` for a `uint16`: four upper-case hexadecimal
digits. -/
def Sprintf04X (crc : Nat) : GoString :=
  [hexDigit (crc / 4096 % 16), hexDigit (crc / 256 % 16), hexDigit (crc / 16 % 16),
    hexDigit (crc % 16)]

/-- The Go call `strings.ToUpper(s)` on an ASCII string. -/
def ToUpper (s : GoString) : GoString :=
  s.map (fun b => if 97 ≤ b.val ∧ b.val ≤ 122 then Fin.ofNat (b.val - 32) else b)

/-- The Go function `CalculateCRC`. -/
def CalculateCRC (payload : GoString) : GoString :=
  ToUpper (Sprintf04X ((rangeRunes 0 payload).foldl crcRune 0xFFFF))

/-- The Go function `UpdateCRC`. -/
def UpdateCRC (data : List TLV) : List TLV :=
  let filtered := data.filter (fun tlv => tlv.Tag ≠ TagCRC)
  let partialStr := SerializeTLV filtered ++ TagCRC ++ bytes "04"
  let crc := CalculateCRC partialStr
  filtered ++ [⟨TagCRC, 4, crc, []⟩]

/-- The loop of `ReplaceTLVValue`: the first field tagged `targetTag` gets the new value,
its length, and no sub-fields. -/
def replaceFirst : List TLV → GoString → GoString → List TLV
  | [], _, _ => []
  | tlv :: data, targetTag, newValue =>
    if tlv.Tag = targetTag then ⟨tlv.Tag, newValue.length, newValue, []⟩ :: data
    else tlv :: replaceFirst data targetTag newValue

/-- The Go function `ReplaceTLVValue`. -/
def ReplaceTLVValue (data : List TLV) (targetTag newValue : GoString) : List TLV :=
  UpdateCRC (replaceFirst data targetTag newValue)

/-! ## types.go -/

/-- The constant `TagPayloadFormat`. -/
def TagPayloadFormat : GoString := bytes "00"
/-- The constant `TagMerchantCategory`. -/
def TagMerchantCategory : GoString := bytes "52"
/-- The constant `TagTransactionCurrency`. -/
def TagTransactionCurrency : GoString := bytes "53"
/-- The constant `TagAdditionalData`. -/
def TagAdditionalData : GoString := bytes "62"
/-- The constant `TagPointOfInitiation`. -/
def TagPointOfInitiation : GoString := bytes "01"
/-- The constant `TagTransactionAmount`. -/
def TagTransactionAmount : GoString := bytes "54"
/-- The constant `TagCountryCode`. -/
def TagCountryCode : GoString := bytes "58"
/-- The constant `TagMerchantName`. -/
def TagMerchantName : GoString := bytes "59"
/-- The constant `TagMerchantCity`. -/
def TagMerchantCity : GoString := bytes "60"
/-- The constant `TagPostalCode`. -/
def TagPostalCode : GoString := bytes "61"
/-- The constant `TagFeeRupiah`. -/
def TagFeeRupiah : GoString := bytes "55020256"
/-- The constant `TagFeePercent`. -/
def TagFeePercent : GoString := bytes "55020357"
/-- The constant `POIMStatic`. -/
def POIMStatic : GoString := bytes "11"
/-- The constant `POIMDynamic`. -/
def POIMDynamic : GoString := bytes "12"

/-- The Go type `QRISFeeType` (an `int`). -/
abbrev QRISFeeType := Int
/-- The constant `QRISFeeNone` (`iota` 0). -/
def QRISFeeNone : QRISFeeType := 0
/-- The constant `QRISFeeRupiah` (`iota` 1). -/
def QRISFeeRupiah : QRISFeeType := 1
/-- The constant `QRISFeePercent` (`iota` 2). -/
def QRISFeePercent : QRISFeeType := 2

/-- A Go `float64`: a finite value, which is a rational number (`finite 0` is the positive
zero), the negative zero, an infinity, or NaN. -/
inductive Float64 where
  | finite (x : Rat)
  | negZero
  | inf (negative : Bool)
  | nan
deriving DecidableEq

/-- A numeral of the source as a `float64`. -/
instance instOfNatFloat64 (n : Nat) : OfNat Float64 n := ⟨Float64.finite n⟩

/-- The Go struct `QRISAmountOptions`. -/
structure QRISAmountOptions where
  Amount : Int
  FeeType : QRISFeeType
  FeeValue : Float64

/-- The least value of a Go `int` (64 bits). -/
def minInt : Int := -(2 : Int) ^ 63

/-- The Go conversion `int(x)` of a `float64`: the fraction is discarded (truncation toward
zero) when the result fits an `int` (64 bits). When it does not, and for an infinity or NaN,
the Go specification leaves the result to the implementation; the model takes what the amd64
compiler gives, the least `int`. -/
def floatToInt : Float64 → Int
  | .finite x =>
    if -(2 : Int) ^ 63 ≤ Int.tdiv x.num x.den ∧ Int.tdiv x.num x.den < (2 : Int) ^ 63 then
      Int.tdiv x.num x.den
    else minInt
  | .negZero => 0
  | .inf _ => minInt
  | .nan => minInt

/-- A non-negative rational rounded to the nearest natural number, a tie to the even one. -/
def roundHalfEven (x : Rat) : Nat :=
  let f := x.floor.toNat
  let r := x - x.floor
  if r < 1 / 2 then f else if 1 / 2 < r then f + 1 else if f % 2 = 0 then f else f + 1

/-- The Go call `fmt.Sprintf("%.2f", x)`: a finite value rounded to two decimals, with its
sign when negative; `+Inf`, `-Inf` and `NaN` for the other values. -/
def Sprintf2f : Float64 → GoString
  | .finite x =>
    (if x < 0 then bytes "-" else []) ++ decimalDigits (roundHalfEven (|x| * 100) / 100)
      ++ bytes "." ++ Sprintf02d (roundHalfEven (|x| * 100) % 100)
  | .negZero => bytes "-0.00"
  | .inf false => bytes "+Inf"
  | .inf true => bytes "-Inf"
  | .nan => bytes "NaN"

/-! ## qris.go -/

/-- The Go struct `QRIS`. -/
structure QRIS where
  Raw : GoString
  TLVs : List TLV

/-- The Go function `NewQRISFromString`. -/
def NewQRISFromString (raw : GoString) : Except Failure QRIS :=
  match ParseTLV raw with
  | .error e => .error e
  | .ok tlvs => .ok ⟨raw, tlvs⟩

/-- The Go method `QRIS.Serialize`. -/
def QRIS.Serialize (q : QRIS) : GoString := SerializeTLV q.TLVs

/-- The loop of `QRIS.Get`. -/
def getValue : List TLV → GoString → GoString
  | [], _ => []
  | tlv :: data, tag => if tlv.Tag = tag then tlv.Value else getValue data tag

/-- The Go method `QRIS.Get`. -/
def QRIS.Get (q : QRIS) (tag : GoString) : GoString := getValue q.TLVs tag

/-- The Go method `QRIS.Replace`. -/
def QRIS.Replace (q : QRIS) (tag newValue : GoString) : QRIS :=
  { q with TLVs := ReplaceTLVValue q.TLVs tag newValue }

/-- The Go method `QRIS.IsDynamic`. -/
def QRIS.IsDynamic (q : QRIS) : Bool := q.Get TagPointOfInitiation = POIMDynamic

/-- The Go method `QRIS.IsStatic`. -/
def QRIS.IsStatic (q : QRIS) : Bool := q.Get TagPointOfInitiation = POIMStatic

/-- The insertion loop of `SetAmountWithOptions`: `news` (the amount field, then the fee
field if there is one) goes before the first field tagged `TagCountryCode`. -/
def insertBeforeCountry (news : List TLV) : Bool → List TLV → List TLV
  | _, [] => []
  | inserted, tlv :: data =>
    if tlv.Tag = TagCountryCode ∧ inserted = false then
      news ++ tlv :: insertBeforeCountry news true data
    else tlv :: insertBeforeCountry news inserted data

/-- The fee field `feeTLV` of `SetAmountWithOptions`, `none` for the nil pointer. -/
def feeField (opts : QRISAmountOptions) : Option TLV :=
  if opts.FeeType = QRISFeeRupiah then
    let feeStr := Itoa (floatToInt opts.FeeValue)
    some ⟨TagFeeRupiah, feeStr.length, feeStr, []⟩
  else if opts.FeeType = QRISFeePercent then
    let feeStr := Sprintf2f opts.FeeValue
    some ⟨TagFeePercent, feeStr.length, feeStr, []⟩
  else none

/-- The Go method `QRIS.SetAmountWithOptions`. -/
def QRIS.SetAmountWithOptions (q : QRIS) (opts : QRISAmountOptions) : QRIS :=
  if opts.Amount ≤ 0 then q
  else
    let t1 := ReplaceTLVValue q.TLVs TagPointOfInitiation POIMDynamic
    let t2 := RemoveTLV t1 TagTransactionAmount
    let t3 := RemoveTLVPrefix t2 (bytes "55")
    let amountStr := Itoa opts.Amount
    let amountTLV : TLV := ⟨TagTransactionAmount, amountStr.length, amountStr, []⟩
    let result := insertBeforeCountry (amountTLV :: (feeField opts).toList) false t3
    { q with TLVs := UpdateCRC result }

/-- The Go method `QRIS.SetMerchantName`. -/
def QRIS.SetMerchantName (q : QRIS) (name : GoString) : QRIS :=
  { q with TLVs := ReplaceTLVValue q.TLVs TagMerchantName name }

/-- The Go method `QRIS.SetMerchantCityAndPostalCode`. -/
def QRIS.SetMerchantCityAndPostalCode (q : QRIS) (city postalCode : GoString) : QRIS :=
  let t1 := ReplaceTLVValue q.TLVs TagMerchantCity city
  { q with TLVs := ReplaceTLVValue t1 TagPostalCode postalCode }

/-! ## qris_struct.go and `MapToStruct` -/

/-- A Go `map[string]string`, as the list of its entries. -/
abbrev StringMap := List (GoString × GoString)

/-- The Go assignment `m[k] = v`: the entry of `k` is replaced, or added. -/
def mapSet : StringMap → GoString → GoString → StringMap
  | [], k, v => [(k, v)]
  | (k0, v0) :: m, k, v => if k0 = k then (k, v) :: m else (k0, v0) :: mapSet m k v

/-- The Go struct `QRISData`. -/
structure QRISData where
  PayloadFormat : GoString
  PointOfInitiation : GoString
  MerchantAccounts : StringMap
  MerchantCategoryCode : GoString
  TransactionCurrency : GoString
  TransactionAmount : GoString
  TipOrConvenience : GoString
  CountryCode : GoString
  MerchantName : GoString
  MerchantCity : GoString
  PostalCode : GoString
  AdditionalData : StringMap
  Unmapped : StringMap
  CRC : GoString
  FeeType : GoString
  FeeValue : GoString
deriving DecidableEq

/-- The record `MapToStruct` starts from: empty strings and empty maps. -/
def QRISData.empty : QRISData :=
  ⟨[], [], [], [], [], [], [], [], [], [], [], [], [], [], [], []⟩

/-- The body of the loop of `MapToStruct` for one field: the `switch` on its tag, the first
case that holds being taken. The call `ParseTLV(tlv.Value)` of the case of tag `"62"` adds
the sub-fields when it returns no error, changes nothing when it returns one, and ends the
whole call when it panics. -/
def mapField (data : QRISData) (tlv : TLV) : Except Failure QRISData :=
  if tlv.Tag = TagPayloadFormat then .ok { data with PayloadFormat := tlv.Value }
  else if tlv.Tag = TagPointOfInitiation then .ok { data with PointOfInitiation := tlv.Value }
  else if inMerchantRange tlv.Tag then
    .ok { data with MerchantAccounts := mapSet data.MerchantAccounts tlv.Tag tlv.Value }
  else if tlv.Tag = TagMerchantCategory then
    .ok { data with MerchantCategoryCode := tlv.Value }
  else if tlv.Tag = TagTransactionCurrency then
    .ok { data with TransactionCurrency := tlv.Value }
  else if tlv.Tag = TagTransactionAmount then .ok { data with TransactionAmount := tlv.Value }
  else if HasPrefix tlv.Tag (bytes "55") then
    if tlv.Tag = TagFeeRupiah then
      .ok { data with TipOrConvenience := tlv.Value, FeeType := bytes "rupiah",
                      FeeValue := tlv.Value }
    else if tlv.Tag = TagFeePercent then
      .ok { data with TipOrConvenience := tlv.Value, FeeType := bytes "percent",
                      FeeValue := tlv.Value }
    else .ok { data with TipOrConvenience := tlv.Value }
  else if tlv.Tag = TagCountryCode then .ok { data with CountryCode := tlv.Value }
  else if tlv.Tag = TagMerchantName then .ok { data with MerchantName := tlv.Value }
  else if tlv.Tag = TagMerchantCity then .ok { data with MerchantCity := tlv.Value }
  else if tlv.Tag = TagPostalCode then .ok { data with PostalCode := tlv.Value }
  else if tlv.Tag = TagAdditionalData then
    match ParseTLV tlv.Value with
    | .ok subTLVs =>
      let additional := subTLVs.foldl (fun m sub => mapSet m sub.Tag sub.Value)
        data.AdditionalData
      .ok { data with AdditionalData := additional }
    | .error (.invalidSegment _) => .ok data
    | .error e => .error e
  else if tlv.Tag = TagCRC then .ok { data with CRC := tlv.Value }
  else .ok { data with Unmapped := mapSet data.Unmapped tlv.Tag tlv.Value }

/-- The loop of `MapToStruct` over the fields, in order. -/
def mapFields : QRISData → List TLV → Except Failure QRISData
  | data, [] => .ok data
  | data, tlv :: rest =>
    match mapField data tlv with
    | .error e => .error e
    | .ok data1 => mapFields data1 rest

/-- The Go method `QRIS.MapToStruct`. -/
def QRIS.MapToStruct (q : QRIS) : Except Failure QRISData := mapFields QRISData.empty q.TLVs

/-! ## Auxiliary definitions of the statements -/

/-- The error index of a result moved by `k`: what the loop of `ParseTLV` returns from index
`k` on, in terms of what it returns on `s[k:]` from index `0`. -/
def shiftError (k : Nat) : Except Failure (List TLV) → Except Failure (List TLV)
  | .error (.invalidSegment j) => .error (.invalidSegment (k + j))
  | r => r

/-- The sub-fields `ParseTLV` stores for a field with this tag and value. -/
def nestedParse (tag value : GoString) : Except Failure (List TLV) :=
  if inMerchantRange tag then dropError (ParseTLV value) else .ok []

/-- One bit of CRC-16/CCITT-FALSE on the 16-bit register: the register moves one place to
the left, and the polynomial `0x1021` is added when the bit that leaves it is set. -/
def crc16Bit (reg : Nat) : Nat :=
  if reg / 32768 % 2 = 1 then (2 * reg % 65536) ^^^ 0x1021 else 2 * reg % 65536

/-- One byte of CRC-16/CCITT-FALSE: the byte is added to the top byte of the register, then
eight bits are processed, most significant first. -/
def crc16Byte (reg : Nat) (b : Byte) : Nat := crc16Bit^[8] (reg ^^^ (b.val * 256))

/-- The specification's checksum, following its words: CRC-16/CCITT-FALSE of a byte sequence
(initial register `0xFFFF`, polynomial `0x1021`, no reflection, no final XOR). -/
def crc16CcittFalse (data : GoString) : Nat := data.foldl crc16Byte 0xFFFF

/-- A character of an upper-case hexadecimal numeral: `0`-`9` or `A`-`F`. -/
def isUpperHex (b : Byte) : Bool := (48 ≤ b.val && b.val ≤ 57) || (65 ≤ b.val && b.val ≤ 70)

/-- The tags of a field sequence, in order. -/
def tags (d : List TLV) : List GoString := d.map (fun f => f.Tag)

/-- The (tag, value) pairs of a field sequence, in order. -/
def tagValues (d : List TLV) : List (GoString × GoString) := d.map (fun f => (f.Tag, f.Value))

/-- A field sequence without its first field tagged `t`. -/
def dropFirstTag (t : GoString) : List TLV → List TLV
  | [] => []
  | f :: d => if f.Tag = t then d else f :: dropFirstTag t d

/-- The loop of `ParseTLV` on `s` arrives at index `i` with no error and no panic before:
it starts at `0`, and goes from `i` to `i + 4 + length` when the segment at `i` is read
whole (header, a length that is not negative, the value within the string) and the nested
parse of its value, if any, does not panic. -/
inductive Reaches (s : GoString) : Nat → Prop where
  | start : Reaches s 0
  | step (i : Nat) (length : Int) (sub : List TLV) :
      Reaches s i → 4 ≤ (s.drop i).length →
      Atoi (slice (s.drop i) 2 4) = some length → 0 ≤ length →
      4 + length.toNat ≤ (s.drop i).length →
      nestedParse (slice (s.drop i) 0 2) (slice (s.drop i) 4 (4 + length.toNat)) = .ok sub →
      Reaches s (i + 4 + length.toNat)

mutual
/-- The length invariant of a field and of all its nested sub-fields: `Len` is the length of
`Value`. -/
def TLV.lenOk : TLV → Bool
  | ⟨_, len, value, sub⟩ => decide (len = (value.length : Int)) && lenOkList sub
/-- The length invariant of every field of a sequence, nested sub-fields included. -/
def lenOkList : List TLV → Bool
  | [] => true
  | f :: d => f.lenOk && lenOkList d
end

/-- The length invariant of the top-level fields of a sequence. -/
def TopLenOk (d : List TLV) : Prop := ∀ f ∈ d, f.Len = (f.Value.length : Int)

/-- The two decimal digits of a number below 100, zero-padded. -/
def twoDigits (n : Nat) : GoString := [Fin.ofNat (48 + n / 10), Fin.ofNat (48 + n % 10)]

/-- The wire format of a field sequence whose values are shorter than 100 bytes: for each
field its tag, the two digits of the length of its value, and its value. -/
def wireFormat (d : List TLV) : GoString :=
  (d.map (fun f => f.Tag ++ twoDigits f.Value.length ++ f.Value)).flatten

/-- What `SetAmountWithOptions` keeps of a field sequence: the first field tagged `"01"` set
to `"12"`, and no field tagged `"63"`, tagged `"54"`, or with a tag that starts with
`"55"`. -/
def amountBase (d : List TLV) : List TLV :=
  RemoveTLVPrefix
    (RemoveTLV (RemoveTLV (replaceFirst d TagPointOfInitiation POIMDynamic) TagCRC)
      TagTransactionAmount) (bytes "55")

/-- The tags `SetAmountWithOptions` keeps: not the checksum, the amount or a fee. -/
def amountKeeps (t : GoString) : Bool :=
  decide (t ≠ TagCRC) && decide (t ≠ TagTransactionAmount) && !HasPrefix t (bytes "55")

/-- The fields `SetAmountWithOptions` inserts: the amount, then the fee if there is one. -/
def amountFields (opts : QRISAmountOptions) : List TLV :=
  ⟨TagTransactionAmount, (Itoa opts.Amount).length, Itoa opts.Amount, []⟩ ::
    (feeField opts).toList

/-- The constant `sampleQRISRaw` of qris_test.go. -/
def sampleQRISRaw : GoString := bytes
  "00020101021126570011ID.DANA.WWW037491823004928374019283740192837401928UKC51440014ID.CO.QRIS.WWW84017629301574892036417UKC5204481453033605802ID5908Toko 8166013Jakarta Pusat610510330630468FE"

/-- The function `stringContains` of qris_test.go (its `contains` calls it). -/
def stringContains (s substr : GoString) : Bool :=
  (List.range (s.length + 1 - substr.length)).any
    (fun i => slice s i (i + substr.length) = substr)

/-- The fields of `sampleQRISRaw` (the two merchant-account values do not parse as nested
fields, so their sub-field sequences are empty). -/
def sampleFields : List TLV :=
  [⟨bytes "00", 2, bytes "01", []⟩,
   ⟨bytes "01", 2, bytes "11", []⟩,
   ⟨bytes "26", 57, bytes "0011ID.DANA.WWW037491823004928374019283740192837401928UKC", []⟩,
   ⟨bytes "51", 44, bytes "0014ID.CO.QRIS.WWW84017629301574892036417UKC", []⟩,
   ⟨bytes "52", 4, bytes "4814", []⟩,
   ⟨bytes "53", 3, bytes "360", []⟩,
   ⟨bytes "58", 2, bytes "ID", []⟩,
   ⟨bytes "59", 8, bytes "Toko 816", []⟩,
   ⟨bytes "60", 13, bytes "Jakarta Pusat", []⟩,
   ⟨bytes "61", 5, bytes "10330", []⟩,
   ⟨bytes "63", 4, bytes "68FE", []⟩]

/-- The document `NewQRISFromString(sampleQRISRaw)` returns. -/
def sampleQRIS : QRIS := ⟨sampleQRISRaw, sampleFields⟩

/-! ## Fuel and index of the parsing loop -/

/-- Any two amounts of fuel above the length of the input give the same result. -/
theorem parseLoop_fuel (n : Nat) : ∀ (m i : Nat) (s : GoString),
    s.length < n → s.length < m → parseLoop n i s = parseLoop m i s := by
  induction n with
  | zero => intro m i s h; omega
  | succ n ih =>
    intro m i s hn hm
    cases m with
    | zero => omega
    | succ m =>
      unfold parseLoop
      by_cases h4 : s.length < 4
      · simp [h4]
      · simp only [h4, if_false]
        cases hA : Atoi (slice s 2 4) with
        | none => rfl
        | some length =>
          simp only []
          by_cases h1 : (s.length : Int) < 4 + length
          · simp [h1]
          · by_cases h2 : length < 0
            · simp [h1, h2]
            · simp only [h1, h2, if_false]
              have hv : (slice s 4 (4 + length.toNat)).length < n ∧
                  (slice s 4 (4 + length.toNat)).length < m := by
                simp only [slice, List.length_take, List.length_drop]; omega
              have hd : (s.drop (4 + length.toNat)).length < n ∧
                  (s.drop (4 + length.toNat)).length < m := by
                simp only [List.length_drop]; omega
              rw [ih m 0 _ hv.1 hv.2, ih m _ _ hd.1 hd.2]

/-- The start index only moves the index an error reports. -/
theorem parseLoop_index (n : Nat) : ∀ (i : Nat) (s : GoString),
    parseLoop n i s = shiftError i (parseLoop n 0 s) := by
  induction n with
  | zero => intro i s; rfl
  | succ n ih =>
    intro i s
    unfold parseLoop
    by_cases h4 : s.length < 4
    · simp [h4, shiftError]
    · simp only [h4, if_false]
      cases hA : Atoi (slice s 2 4) with
      | none => simp [shiftError]
      | some length =>
        simp only []
        by_cases h1 : (s.length : Int) < 4 + length
        · simp [h1, shiftError]
        · by_cases h2 : length < 0
          · simp [h1, h2, shiftError]
          · simp only [h1, h2, if_false]
            cases hN : (if inMerchantRange (slice s 0 2) = true
                then dropError (parseLoop n 0 (slice s 4 (4 + length.toNat)))
                else Except.ok []) with
            | error e =>
              cases e with
              | invalidSegment j =>
                exfalso
                split at hN
                · cases hP : parseLoop n 0 (slice s 4 (4 + length.toNat)) with
                  | ok r => rw [hP] at hN; simp [dropError] at hN
                  | error e => rw [hP] at hN; cases e <;> simp [dropError] at hN
                · simp at hN
              | sliceBounds => simp [shiftError]
              | outOfFuel => simp [shiftError]
            | ok sub =>
              simp only []
              rw [ih (i + 4 + length.toNat), ih (0 + 4 + length.toNat)]
              cases hP : parseLoop n 0 (List.drop (4 + length.toNat) s) with
              | ok r => simp [shiftError]
              | error e => cases e <;> simp [shiftError]; omega

/-- The recursion equation of `ParseTLV`: one pass of its loop, the rest of the loop being
`ParseTLV` on the rest of the input. -/
theorem ParseTLV_eq (s : GoString) :
    ParseTLV s =
      if s.length < 4 then .ok []
      else
        match Atoi (slice s 2 4) with
        | none => .error (.invalidSegment 0)
        | some length =>
          if (s.length : Int) < 4 + length then .error (.invalidSegment 0)
          else if length < 0 then .error .sliceBounds
          else
            match nestedParse (slice s 0 2) (slice s 4 (4 + length.toNat)) with
            | .error e => .error e
            | .ok sub =>
              match shiftError (4 + length.toNat) (ParseTLV (s.drop (4 + length.toNat))) with
              | .error e => .error e
              | .ok more =>
                .ok (⟨slice s 0 2, length, slice s 4 (4 + length.toNat), sub⟩ :: more) := by
  unfold ParseTLV
  rw [parseLoop]
  by_cases h4 : s.length < 4
  · simp [h4]
  · simp only [h4, if_false]
    cases hA : Atoi (slice s 2 4) with
    | none => rfl
    | some length =>
      simp only []
      by_cases h1 : (s.length : Int) < 4 + length
      · simp [h1]
      · by_cases h2 : length < 0
        · simp [h1, h2]
        · simp only [h1, h2, if_false]
          have hv : (slice s 4 (4 + length.toNat)).length < s.length := by
            simp only [slice, List.length_take, List.length_drop]; omega
          have hd : (s.drop (4 + length.toNat)).length < s.length := by
            simp only [List.length_drop]; omega
          rw [parseLoop_fuel s.length ((slice s 4 (4 + length.toNat)).length + 1) 0 _ hv
              (Nat.lt_succ_self _),
            parseLoop_index s.length (0 + 4 + length.toNat),
            parseLoop_fuel s.length ((s.drop (4 + length.toNat)).length + 1) 0 _ hd
              (Nat.lt_succ_self _)]
          simp only [nestedParse, ParseTLV, Nat.zero_add]


/-! ## The standard-library models -/

set_option maxRecDepth 100000 in
/-- A length of two digits is read back by `strconv.Atoi`. -/
theorem Atoi_Sprintf02d : ∀ n : Nat, n < 100 →
    Atoi (Sprintf02d n) = some (n : Int) ∧ (Sprintf02d n).length = 2 := by
  decide

/-- A non-negative number read from two characters is at most 99. -/
theorem Atoi_two_le (t : GoString) (n : Int) (ht : t.length = 2) (h : Atoi t = some n)
    (h0 : 0 ≤ n) : n ≤ 99 := by
  match t, ht with
  | [a, b], _ =>
    by_cases hs : a.val = 45 ∨ a.val = 43
    all_goals
      simp only [Atoi, hs, if_true, if_false, isDigit, digitsValue, List.all_cons,
        List.all_nil, List.foldl_cons, List.foldl_nil, Bool.and_true, Bool.and_eq_true,
        decide_eq_true_eq] at h
      repeat' (split at h)
    all_goals first | omega | (simp at h; done) | (simp at h; omega)


/-! ## Parsing a serialized segment -/

theorem shiftError_eq_ok (k : Nat) (r : Except Failure (List TLV)) (x : List TLV) :
    shiftError k r = .ok x ↔ r = .ok x := by
  cases r with
  | ok y => simp [shiftError]
  | error e => cases e <;> simp [shiftError]

/-- The slices `ParseTLV` takes of an input that starts with a segment. -/
theorem slice_segment (tag ll value rest : GoString) (ht : tag.length = 2)
    (hl : ll.length = 2) :
    slice (tag ++ ll ++ value ++ rest) 0 2 = tag ∧
    slice (tag ++ ll ++ value ++ rest) 2 4 = ll ∧
    slice (tag ++ ll ++ value ++ rest) 4 (4 + value.length) = value ∧
    (tag ++ ll ++ value ++ rest).drop (4 + value.length) = rest := by
  match tag, ht, ll, hl with
  | [a, b], _, [c, d], _ =>
    refine ⟨by simp [slice], by simp [slice], by simp [slice], ?_⟩
    have h : 4 + value.length = value.length + 1 + 1 + 1 + 1 := by omega
    rw [h]
    simp

/-- Parsing an input that starts with a well-formed segment: the field of the segment, then
the fields of the rest. -/
theorem ParseTLV_segment (tag value rest : GoString) (ht : tag.length = 2)
    (hv : value.length < 100) :
    ParseTLV (tag ++ Sprintf02d value.length ++ value ++ rest) =
      match nestedParse tag value with
      | .error e => .error e
      | .ok sub =>
        match shiftError (4 + value.length) (ParseTLV rest) with
        | .error e => .error e
        | .ok more => .ok (⟨tag, value.length, value, sub⟩ :: more) := by
  obtain ⟨hA, hl⟩ := Atoi_Sprintf02d value.length hv
  obtain ⟨h1, h2, h3, h4⟩ := slice_segment tag (Sprintf02d value.length) value rest ht hl
  rw [ParseTLV_eq]
  have hlen : ¬ (tag ++ Sprintf02d value.length ++ value ++ rest).length < 4 := by
    simp only [List.length_append, ht, hl]; omega
  have hlen2 : ¬ (((tag ++ Sprintf02d value.length ++ value ++ rest).length : Int)
      < 4 + (value.length : Int)) := by
    simp only [List.length_append, ht, hl]; push_cast; omega
  have hneg : ¬ ((value.length : Int) < 0) := by omega
  simp only [hlen, if_false, h2, hA, hlen2, hneg, Int.toNat_ofNat, h1, h3, h4]


/-- What a successful `ParseTLV` says about its input: nothing left to read, or a first
field read from the first segment and the other fields parsed from the rest. -/
theorem ParseTLV_ok_inv (s : GoString) (fs : List TLV) (h : ParseTLV s = .ok fs) :
    (s.length < 4 ∧ fs = []) ∨
    ∃ f more, fs = f :: more ∧ 4 + f.Value.length ≤ s.length ∧
      f.Tag = slice s 0 2 ∧ f.Tag.length = 2 ∧
      Atoi (slice s 2 4) = some f.Len ∧ 0 ≤ f.Len ∧ f.Len ≤ 99 ∧
      f.Value = slice s 4 (4 + f.Len.toNat) ∧ (f.Value.length : Int) = f.Len ∧
      nestedParse f.Tag f.Value = .ok f.Sub ∧
      ParseTLV (s.drop (4 + f.Value.length)) = .ok more := by
  rw [ParseTLV_eq] at h
  by_cases h4 : s.length < 4
  · left
    simp only [h4, if_true, Except.ok.injEq] at h
    exact ⟨h4, h.symm⟩
  · right
    simp only [h4, if_false] at h
    cases hA : Atoi (slice s 2 4) with
    | none => simp [hA] at h
    | some length =>
      simp only [hA] at h
      by_cases h1 : (s.length : Int) < 4 + length
      · simp [h1] at h
      · by_cases h2 : length < 0
        · simp [h1, h2] at h
        · simp only [h1, h2, if_false] at h
          cases hN : nestedParse (slice s 0 2) (slice s 4 (4 + length.toNat)) with
          | error e => simp [hN] at h
          | ok sub =>
            simp only [hN] at h
            cases hR : shiftError (4 + length.toNat) (ParseTLV (s.drop (4 + length.toNat))) with
            | error e => simp [hR] at h
            | ok more =>
              simp only [hR, Except.ok.injEq] at h
              have hR2 := (shiftError_eq_ok _ _ _).1 hR
              have hvl : (slice s 4 (4 + length.toNat)).length = length.toNat := by
                simp only [slice, List.length_take, List.length_drop]; omega
              have htl : (slice s 0 2).length = 2 := by
                simp only [slice, List.length_take, List.length_drop]; omega
              have hsl : (slice s 2 4).length = 2 := by
                simp only [slice, List.length_take, List.length_drop]; omega
              have h99 := Atoi_two_le _ _ hsl hA (by omega)
              refine ⟨_, more, h.symm, ?_, rfl, htl, rfl, Int.not_lt.mp h2, h99, rfl, ?_, hN, ?_⟩
              · simp only [hvl]; omega
              · simp only [hvl]; omega
              · simp only [hvl]; exact hR2

/-! ## C1: round trip -/

/-- C1. Round trip: when `ParseTLV` succeeds on a string with the field sequence `fs`,
`ParseTLV` succeeds on `SerializeTLV fs` and returns `fs` itself: the same tags, lengths,
values and sub-fields in the same order. -/
theorem ParseTLV_SerializeTLV_roundtrip (s : GoString) (fs : List TLV)
    (h : ParseTLV s = .ok fs) : ParseTLV (SerializeTLV fs) = .ok fs := by
  induction' hn : s.length using Nat.strong_induction_on with n ih generalizing s fs
  · rcases ParseTLV_ok_inv s fs h with ⟨_, rfl⟩ | ⟨f, more, rfl, hle, _, htl, _, h0, h99, _,
      hvl, hN, hR⟩
    · decide
    · have ihm := ih (s.drop (4 + f.Value.length)).length
        (by simp only [List.length_drop]; omega) _ more hR rfl
      have hv : f.Value.length < 100 := by omega
      rw [SerializeTLV, ParseTLV_segment f.Tag f.Value _ htl hv, hN, ihm]
      simp only [shiftError, hvl]
      cases f
      rfl

set_option maxRecDepth 100000 in
/-- The witness of C1: the sample payload of the tests parses into `sampleFields`, which
round-trip. -/
theorem ParseTLV_SerializeTLV_roundtrip_witness :
    ParseTLV sampleQRISRaw = .ok sampleFields ∧
      ParseTLV (SerializeTLV sampleFields) = .ok sampleFields :=
  ⟨by rfl, ParseTLV_SerializeTLV_roundtrip sampleQRISRaw sampleFields (by rfl)⟩


/-- `ParseTLV` is total: the fuel of its loop never runs out, so every call ends with a
field sequence, the returned error or the slice panic. -/
theorem ParseTLV_ne_outOfFuel (s : GoString) : ParseTLV s ≠ .error .outOfFuel := by
  induction' hn : s.length using Nat.strong_induction_on with n ih generalizing s
  rw [ParseTLV_eq]
  by_cases h4 : s.length < 4
  · simp [h4]
  · simp only [h4, if_false]
    cases hA : Atoi (slice s 2 4) with
    | none => simp
    | some length =>
      simp only []
      by_cases h1 : (s.length : Int) < 4 + length
      · simp [h1]
      · by_cases h2 : length < 0
        · simp [h1, h2]
        · simp only [h1, h2, if_false]
          have hv : (slice s 4 (4 + length.toNat)).length < n := by
            simp only [slice, List.length_take, List.length_drop]; omega
          have hd : (s.drop (4 + length.toNat)).length < n := by
            simp only [List.length_drop]; omega
          have ihv := ih _ hv (slice s 4 (4 + length.toNat)) rfl
          have ihd := ih _ hd (s.drop (4 + length.toNat)) rfl
          cases hN : nestedParse (slice s 0 2) (slice s 4 (4 + length.toNat)) with
          | error e =>
            simp only []
            intro he
            injection he with he
            subst he
            unfold nestedParse at hN
            split at hN
            · cases hP : ParseTLV (slice s 4 (4 + length.toNat)) with
              | ok r => rw [hP] at hN; simp [dropError] at hN
              | error e =>
                rw [hP] at hN
                cases e with
                | invalidSegment j => simp [dropError] at hN
                | sliceBounds => simp [dropError] at hN
                | outOfFuel => exact ihv hP
            · simp at hN
          | ok sub =>
            simp only []
            cases hP : ParseTLV (s.drop (4 + length.toNat)) with
            | ok r => simp [shiftError]
            | error e =>
              cases e with
              | invalidSegment j => simp [shiftError]
              | sliceBounds => simp [shiftError]
              | outOfFuel => exact absurd hP ihd

/-! ## Serialization and the checksum -/

theorem SerializeTLV_append (a b : List TLV) :
    SerializeTLV (a ++ b) = SerializeTLV a ++ SerializeTLV b := by
  induction a with
  | nil => rfl
  | cons f a ih => simp [SerializeTLV, ih]

/-- The checksum string has four characters. -/
theorem CalculateCRC_length (p : GoString) : (CalculateCRC p).length = 4 := by
  simp [CalculateCRC, ToUpper, Sprintf04X]

/-! ## C2: what `UpdateCRC` returns -/

/-- C2. `UpdateCRC d` is the fields of `d` not tagged `"63"`, in their order, followed by
one field with tag `"63"`, length 4 and value `CalculateCRC (SerializeTLV rest ++ "6304")`;
hence the serialized result is `P ++ CalculateCRC P` for `P = SerializeTLV rest ++ "6304"`:
the payload carries the checksum of everything that precedes its four digits. -/
theorem UpdateCRC_checksum (d : List TLV) :
    UpdateCRC d =
        d.filter (fun f => f.Tag ≠ bytes "63") ++
          [⟨bytes "63", 4,
            CalculateCRC (SerializeTLV (d.filter (fun f => f.Tag ≠ bytes "63")) ++ bytes "6304"),
            []⟩] ∧
      SerializeTLV (UpdateCRC d) =
        (SerializeTLV (d.filter (fun f => f.Tag ≠ bytes "63")) ++ bytes "6304") ++
          CalculateCRC (SerializeTLV (d.filter (fun f => f.Tag ≠ bytes "63")) ++ bytes "6304") := by
  have h6304 : bytes "6304" = TagCRC ++ bytes "04" := by decide
  have h04 : Sprintf02d 4 = bytes "04" := by decide
  have h63 : bytes "63" = TagCRC := rfl
  constructor
  · simp only [UpdateCRC, h6304, h63, List.append_assoc]
  · simp only [UpdateCRC, SerializeTLV_append, SerializeTLV, CalculateCRC_length, h04, h6304,
      h63, List.append_assoc, List.append_nil]


/-! ## C3: the checksum string -/

theorem hexDigit_isUpperHex (d : Nat) (h : d < 16) : isUpperHex (hexDigit d) = true := by
  interval_cases d <;> decide

theorem ToUpper_of_isUpperHex (s : GoString) (h : ∀ b ∈ s, isUpperHex b = true) :
    ToUpper s = s := by
  induction s with
  | nil => rfl
  | cons b s ih =>
    have hb := h b (List.mem_cons_self _ _)
    have hs := ih (fun c hc => h c (List.mem_cons_of_mem _ hc))
    simp only [ToUpper, List.map_cons] at hs ⊢
    rw [hs]
    simp only [isUpperHex, Bool.or_eq_true, Bool.and_eq_true, decide_eq_true_eq] at hb
    have : ¬ (97 ≤ b.val ∧ b.val ≤ 122) := by omega
    simp only [this, if_false]

theorem Sprintf04X_isUpperHex (n : Nat) : ∀ b ∈ Sprintf04X n, isUpperHex b = true := by
  intro b hb
  simp only [Sprintf04X, List.mem_cons, List.mem_singleton, List.not_mem_nil, or_false] at hb
  rcases hb with rfl | rfl | rfl | rfl <;>
    exact hexDigit_isUpperHex _ (Nat.mod_lt _ (by decide))

/-- `CalculateCRC` returns the four upper-case hexadecimal digits of its register. -/
theorem CalculateCRC_eq (p : GoString) :
    CalculateCRC p = Sprintf04X ((rangeRunes 0 p).foldl crcRune 0xFFFF) := by
  unfold CalculateCRC
  exact ToUpper_of_isUpperHex _ (Sprintf04X_isUpperHex _)

/-- For every input `CalculateCRC` returns exactly four characters out of `0`-`9`,
`A`-`F`. -/
theorem CalculateCRC_hex (p : GoString) :
    (CalculateCRC p).length = 4 ∧ ∀ b ∈ CalculateCRC p, isUpperHex b = true := by
  refine ⟨CalculateCRC_length p, ?_⟩
  rw [CalculateCRC_eq]
  exact Sprintf04X_isUpperHex _

theorem rangeRunes_ascii (s : GoString) (h : ∀ b ∈ s, b.val < 0x80) :
    rangeRunes 0 s = s.map (fun b => b.val) := by
  induction s with
  | nil => rfl
  | cons b s ih =>
    have hb := h b (List.mem_cons_self _ _)
    have hd : decodeRune b s = (b.val, 1) := by simp [decodeRune, hb]
    simp only [rangeRunes, hd, List.map_cons, Nat.sub_self]
    rw [ih (fun c hc => h c (List.mem_cons_of_mem _ hc))]

theorem crcShift_eq (x : Nat) : crcShift x = crc16Bit x := by
  have h1 : x &&& 0x8000 = (x.testBit 15).toNat * 2 ^ 15 := Nat.and_two_pow x 15
  have h2 : x <<< 1 = 2 * x := by rw [Nat.shiftLeft_eq]; omega
  have h3 : x.testBit 15 = decide (x / 32768 % 2 = 1) := Nat.testBit_to_div_mod
  unfold crcShift crc16Bit
  rw [h1, h2]
  by_cases h : x / 32768 % 2 = 1
  · simp [h3, h]
  · simp [h3, h]

theorem crc16Bit_lt (x : Nat) : crc16Bit x < 65536 := by
  unfold crc16Bit
  split
  · exact Nat.xor_lt_two_pow (n := 16) (Nat.mod_lt _ (by decide)) (by decide)
  · exact Nat.mod_lt _ (by decide)

theorem crcRune_eq (crc : Nat) (b : Byte) : crcRune crc b.val = crc16Byte crc b := by
  have hb : b.val < 256 := b.isLt
  have h1 : ((b.val % 65536) <<< 8) % 65536 = b.val * 256 := by
    rw [Nat.shiftLeft_eq]; omega
  have hf : crcShift = crc16Bit := funext crcShift_eq
  unfold crcRune crc16Byte
  rw [h1, hf]
  have hlt : crc16Bit^[8] (crc ^^^ (b.val * 256)) < 2 ^ 16 := by
    rw [show (8 : Nat) = 7 + 1 from rfl, Function.iterate_succ_apply']
    exact crc16Bit_lt _
  exact Nat.and_pow_two_sub_one_of_lt_two_pow (n := 16) hlt

/-- On a payload of ASCII characters `CalculateCRC` is the CRC-16/CCITT-FALSE of the bytes,
as four upper-case hexadecimal digits. -/
theorem CalculateCRC_ascii (p : GoString) (h : ∀ b ∈ p, b.val < 0x80) :
    CalculateCRC p = Sprintf04X (crc16CcittFalse p) := by
  rw [CalculateCRC_eq, rangeRunes_ascii p h, crc16CcittFalse, List.foldl_map]
  congr 1
  congr 1
  funext crc b
  exact crcRune_eq crc b

set_option maxRecDepth 10000 in
/-- The two examples of the checksum: the empty payload and the check string of the CRC
catalogue. -/
theorem CalculateCRC_examples :
    CalculateCRC [] = bytes "FFFF" ∧ CalculateCRC (bytes "123456789") = bytes "29B1" := by
  decide

set_option maxRecDepth 10000 in
/-- C3, at a payload with a character that is not ASCII. The string `"é"` is the two bytes
`0xC3 0xA9`; `CalculateCRC` ranges over its runes, feeds the register the one value `0xE9`
and returns `"8DF7"`, while the CRC-16/CCITT-FALSE of the two bytes is `"7ACB"`. The same
happens through `SetMerchantName("Café")` on the sample document: the checksum stored in
the serialized payload is `"1365"`, the CRC-16/CCITT-FALSE of what precedes it `"CFA5"`. -/
theorem CalculateCRC_not_crc16_of_bytes :
    bytes "é" = [0xC3, 0xA9] ∧
    CalculateCRC (bytes "é") = bytes "8DF7" ∧
    Sprintf04X (crc16CcittFalse (bytes "é")) = bytes "7ACB" ∧
    ((sampleQRIS.SetMerchantName (bytes "Café")).Serialize).drop 181 = bytes "1365" ∧
    Sprintf04X (crc16CcittFalse (((sampleQRIS.SetMerchantName (bytes "Café")).Serialize).take 181))
      = bytes "CFA5" := by
  decide!

/-! ## C4: checksum maintenance is idempotent -/

theorem UpdateCRC_filter (d : List TLV) :
    (UpdateCRC d).filter (fun tlv => tlv.Tag ≠ TagCRC) =
      d.filter (fun tlv => tlv.Tag ≠ TagCRC) := by
  simp [UpdateCRC, List.filter_append, List.filter_filter]

theorem UpdateCRC_idem (d : List TLV) : UpdateCRC (UpdateCRC d) = UpdateCRC d := by
  have hf := UpdateCRC_filter d
  unfold UpdateCRC at hf ⊢
  simp only [hf]

/-- A sequence `UpdateCRC` leaves as it is has one field tagged `"63"`: its last, holding
the checksum of the fields before it. -/
theorem UpdateCRC_fixed (d : List TLV) (h : UpdateCRC d = d) :
    ∃ rest, d = rest ++ [⟨TagCRC, 4, CalculateCRC (SerializeTLV rest ++ TagCRC ++ bytes "04"),
        []⟩] ∧ ∀ f ∈ rest, f.Tag ≠ TagCRC := by
  refine ⟨d.filter (fun tlv => tlv.Tag ≠ TagCRC), ?_, ?_⟩
  · exact h.symm
  · intro f hf
    simpa using (List.mem_filter.1 hf).2

/-- C4. Checksum maintenance is idempotent, and holds after every mutation: `UpdateCRC` of
`UpdateCRC d` is `UpdateCRC d`; the field sequence left by `Replace`, `SetMerchantName`,
`SetMerchantCityAndPostalCode` and by `SetAmountWithOptions` with a positive amount is left
as it is by `UpdateCRC`; and such a sequence has exactly one field tagged `"63"`, its last,
whose value is the recomputed checksum. -/
theorem checksum_maintenance_idempotent :
    (∀ d : List TLV, UpdateCRC (UpdateCRC d) = UpdateCRC d) ∧
    (∀ (q : QRIS) (t v : GoString), UpdateCRC (q.Replace t v).TLVs = (q.Replace t v).TLVs) ∧
    (∀ (q : QRIS) (n : GoString),
      UpdateCRC (q.SetMerchantName n).TLVs = (q.SetMerchantName n).TLVs) ∧
    (∀ (q : QRIS) (c p : GoString),
      UpdateCRC (q.SetMerchantCityAndPostalCode c p).TLVs =
        (q.SetMerchantCityAndPostalCode c p).TLVs) ∧
    (∀ (q : QRIS) (o : QRISAmountOptions), 0 < o.Amount →
      UpdateCRC (q.SetAmountWithOptions o).TLVs = (q.SetAmountWithOptions o).TLVs) ∧
    (∀ d : List TLV, UpdateCRC d = d →
      ∃ rest, d = rest ++ [⟨TagCRC, 4,
          CalculateCRC (SerializeTLV rest ++ TagCRC ++ bytes "04"), []⟩] ∧
        ∀ f ∈ rest, f.Tag ≠ TagCRC) := by
  refine ⟨UpdateCRC_idem, ?_, ?_, ?_, ?_, UpdateCRC_fixed⟩
  · intro q t v
    exact UpdateCRC_idem _
  · intro q n
    exact UpdateCRC_idem _
  · intro q c p
    exact UpdateCRC_idem _
  · intro q o ho
    have hn : ¬ o.Amount ≤ 0 := by omega
    simp only [QRIS.SetAmountWithOptions, hn, if_false]
    exact UpdateCRC_idem _

/-- The witness of C4: the amount of the tests set on the sample document. -/
theorem checksum_maintenance_idempotent_witness :
    UpdateCRC (sampleQRIS.SetAmountWithOptions ⟨15000, QRISFeeRupiah, 2000⟩).TLVs =
      (sampleQRIS.SetAmountWithOptions ⟨15000, QRISFeeRupiah, 2000⟩).TLVs :=
  checksum_maintenance_idempotent.2.2.2.2.1 sampleQRIS ⟨15000, QRISFeeRupiah, 2000⟩
    (by decide)

/-! ## Looking a tag up -/

theorem getValue_append_of_not_mem (a b : List TLV) (t : GoString)
    (h : ∀ f ∈ a, f.Tag ≠ t) : getValue (a ++ b) t = getValue b t := by
  induction a with
  | nil => rfl
  | cons f a ih =>
    have hf := h f (List.mem_cons_self _ _)
    simp only [List.cons_append, getValue, hf, if_false]
    exact ih (fun g hg => h g (List.mem_cons_of_mem _ hg))

theorem getValue_filter_append (p : TLV → Bool) (d tail : List TLV) (t : GoString)
    (hp : ∀ f, f.Tag = t → p f = true) :
    getValue (d.filter p ++ tail) t = getValue (d ++ tail) t := by
  induction d with
  | nil => rfl
  | cons f d ih =>
    by_cases hf : f.Tag = t
    · simp [List.filter_cons, hp f hf, getValue, hf]
    · by_cases hpf : p f = true
      · simp [List.filter_cons, hpf, getValue, hf, ih]
      · simp [List.filter_cons, hpf, getValue, hf, ih]

theorem getValue_filter (p : TLV → Bool) (d : List TLV) (t : GoString)
    (hp : ∀ f, f.Tag = t → p f = true) : getValue (d.filter p) t = getValue d t := by
  have h := getValue_filter_append p d [] t hp
  simpa using h

theorem getValue_append_singleton (d : List TLV) (c : TLV) (t : GoString) (hc : c.Tag ≠ t) :
    getValue (d ++ [c]) t = getValue d t := by
  induction d with
  | nil => simp [getValue, hc]
  | cons f d ih =>
    by_cases hf : f.Tag = t
    · simp [getValue, hf]
    · simp [getValue, hf, ih]

/-- `UpdateCRC` changes the value looked up under no tag but `"63"`. -/
theorem getValue_UpdateCRC (d : List TLV) (t : GoString) (ht : t ≠ TagCRC) :
    getValue (UpdateCRC d) t = getValue d t := by
  unfold UpdateCRC
  simp only []
  rw [getValue_filter_append _ d _ t, getValue_append_singleton]
  · exact fun h => ht h.symm
  · intro f hf
    simp only [hf, ne_eq, ht, not_false_eq_true, decide_True]

theorem getValue_replaceFirst_same (d : List TLV) (t v : GoString) (h : t ∈ tags d) :
    getValue (replaceFirst d t v) t = v := by
  induction d with
  | nil => simp [tags] at h
  | cons f d ih =>
    by_cases hf : f.Tag = t
    · simp [replaceFirst, getValue, hf]
    · have ht : t ∈ tags d := by
        simp only [tags, List.map_cons, List.mem_cons] at h
        rcases h with h | h
        · exact absurd h.symm hf
        · exact h
      simp [replaceFirst, getValue, hf, ih ht]

theorem getValue_replaceFirst_ne (d : List TLV) (t v u : GoString) (h : u ≠ t) :
    getValue (replaceFirst d t v) u = getValue d u := by
  induction d with
  | nil => rfl
  | cons f d ih =>
    by_cases hf : f.Tag = t
    · have hu : ¬ f.Tag = u := fun e => h (e.symm.trans hf)
      have hu2 : ¬ t = u := fun e => h e.symm
      simp [replaceFirst, getValue, hf, hu2]
    · by_cases hfu : f.Tag = u
      · simp [replaceFirst, getValue, hfu, h]
      · simp [replaceFirst, getValue, hf, hfu, ih]

theorem tags_replaceFirst (d : List TLV) (t v : GoString) :
    tags (replaceFirst d t v) = tags d := by
  induction d with
  | nil => rfl
  | cons f d ih =>
    by_cases hf : f.Tag = t
    · simp [replaceFirst, tags, hf]
    · simp only [replaceFirst, hf, if_false, tags, List.map_cons] at ih ⊢
      rw [ih]

theorem mem_tags_UpdateCRC (d : List TLV) (u : GoString) (hu : u ≠ TagCRC) :
    u ∈ tags (UpdateCRC d) ↔ u ∈ tags d := by
  simp only [tags, UpdateCRC, List.map_append, List.mem_append, List.mem_map, List.mem_filter,
    List.map_cons, List.map_nil, List.mem_singleton]
  constructor
  · rintro (⟨f, ⟨hf, _⟩, rfl⟩ | h)
    · exact ⟨f, hf, rfl⟩
    · exact absurd h hu
  · rintro ⟨f, hf, rfl⟩
    exact Or.inl ⟨f, ⟨hf, by simpa using hu⟩, rfl⟩

theorem mem_tags_ReplaceTLVValue (d : List TLV) (t v u : GoString) (hu : u ≠ TagCRC) :
    u ∈ tags (ReplaceTLVValue d t v) ↔ u ∈ tags d := by
  rw [ReplaceTLVValue, mem_tags_UpdateCRC _ _ hu, tags_replaceFirst]

/-! ## C5: the value read back after a replacement -/

/-- C5 as stated fails for the checksum tag: the sample document carries a field tagged
`"63"`, and after `Replace("63", "0000")` the value `Get("63")` returns is not `"0000"` but
the recomputed checksum `"68FE"`. -/
theorem Get_after_Replace_counterexample :
    TagCRC ∈ tags sampleQRIS.TLVs ∧
    (sampleQRIS.Replace TagCRC (bytes "0000")).Get TagCRC = bytes "68FE" ∧
    (sampleQRIS.Replace TagCRC (bytes "0000")).Get TagCRC ≠ bytes "0000" := by
  decide!

/-- C5, amended. For every document, every tag `t` other than `"63"` carried by at least
one field, and every value `v`: after `Replace(t, v)`, `Get(t)` returns `v`. The same holds
for `SetMerchantName` (tag `"59"`) and, for both tags at once, for
`SetMerchantCityAndPostalCode` (tags `"60"` and `"61"`). -/
theorem Get_after_Replace :
    (∀ (q : QRIS) (t v : GoString), t ≠ TagCRC → t ∈ tags q.TLVs →
      (q.Replace t v).Get t = v) ∧
    (∀ (q : QRIS) (n : GoString), TagMerchantName ∈ tags q.TLVs →
      (q.SetMerchantName n).Get TagMerchantName = n) ∧
    (∀ (q : QRIS) (c p : GoString), TagMerchantCity ∈ tags q.TLVs →
      TagPostalCode ∈ tags q.TLVs →
      (q.SetMerchantCityAndPostalCode c p).Get TagMerchantCity = c ∧
      (q.SetMerchantCityAndPostalCode c p).Get TagPostalCode = p) := by
  have key : ∀ (d : List TLV) (t v : GoString), t ≠ TagCRC → t ∈ tags d →
      getValue (ReplaceTLVValue d t v) t = v := by
    intro d t v ht hm
    rw [ReplaceTLVValue, getValue_UpdateCRC _ _ ht, getValue_replaceFirst_same _ _ _ hm]
  refine ⟨?_, ?_, ?_⟩
  · intro q t v ht hm
    exact key q.TLVs t v ht hm
  · intro q n hm
    exact key q.TLVs TagMerchantName n (by decide) hm
  · intro q c p hc hp
    have h60 : TagMerchantCity ≠ TagCRC := by decide
    have h61 : TagPostalCode ≠ TagCRC := by decide
    have hne : TagMerchantCity ≠ TagPostalCode := by decide
    constructor
    · show getValue (ReplaceTLVValue (ReplaceTLVValue q.TLVs TagMerchantCity c)
        TagPostalCode p) TagMerchantCity = c
      rw [ReplaceTLVValue, getValue_UpdateCRC _ _ h60, getValue_replaceFirst_ne _ _ _ _ hne]
      exact key q.TLVs TagMerchantCity c h60 hc
    · exact key _ TagPostalCode p h61 ((mem_tags_ReplaceTLVValue _ _ _ _ h61).2 hp)

/-- The witness of C5: the replacements of the tests on the sample document. -/
theorem Get_after_Replace_witness :
    (sampleQRIS.Replace TagMerchantName (bytes "WarungA")).Get TagMerchantName
        = bytes "WarungA" ∧
    (sampleQRIS.SetMerchantCityAndPostalCode (bytes "Jakarta") (bytes "12345")).Get
        TagMerchantCity = bytes "Jakarta" ∧
    (sampleQRIS.SetMerchantCityAndPostalCode (bytes "Jakarta") (bytes "12345")).Get
        TagPostalCode = bytes "12345" :=
  ⟨Get_after_Replace.1 sampleQRIS TagMerchantName (bytes "WarungA") (by decide) (by decide),
    Get_after_Replace.2.2 sampleQRIS (bytes "Jakarta") (bytes "12345") (by decide)
      (by decide)⟩

/-! ## C6: what a replacement leaves alone -/

theorem replaceFirst_of_not_mem (d : List TLV) (t v : GoString) (h : t ∉ tags d) :
    replaceFirst d t v = d := by
  induction d with
  | nil => rfl
  | cons f d ih =>
    simp only [tags, List.map_cons, List.mem_cons, not_or] at h
    have hf : ¬ f.Tag = t := fun e => h.1 e.symm
    simp only [replaceFirst, hf, if_false]
    rw [ih h.2]

theorem dropFirstTag_replaceFirst (d : List TLV) (t v : GoString) :
    dropFirstTag t (replaceFirst d t v) = dropFirstTag t d := by
  induction d with
  | nil => rfl
  | cons f d ih =>
    by_cases hf : f.Tag = t
    · simp [replaceFirst, dropFirstTag, hf]
    · simp [replaceFirst, dropFirstTag, hf, ih]

theorem dropFirstTag_of_not_mem (d : List TLV) (t : GoString) (h : ∀ f ∈ d, f.Tag ≠ t) :
    dropFirstTag t d = d := by
  induction d with
  | nil => rfl
  | cons f d ih =>
    have hf := h f (List.mem_cons_self _ _)
    simp only [dropFirstTag, hf, if_false]
    rw [ih (fun g hg => h g (List.mem_cons_of_mem _ hg))]

theorem dropFirstTag_append_singleton (d : List TLV) (c : TLV) (t : GoString)
    (hc : c.Tag ≠ t) : dropFirstTag t (d ++ [c]) = dropFirstTag t d ++ [c] := by
  induction d with
  | nil => simp [dropFirstTag, hc]
  | cons f d ih =>
    by_cases hf : f.Tag = t
    · simp [dropFirstTag, hf]
    · simp [dropFirstTag, hf, ih]

theorem RemoveTLV_cons_eq (f : TLV) (d : List TLV) (t : GoString) (h : f.Tag = t) :
    RemoveTLV (f :: d) t = RemoveTLV d t := by
  simp [RemoveTLV, List.filter_cons, h]

theorem RemoveTLV_cons_ne (f : TLV) (d : List TLV) (t : GoString) (h : f.Tag ≠ t) :
    RemoveTLV (f :: d) t = f :: RemoveTLV d t := by
  simp [RemoveTLV, List.filter_cons, h]

theorem RemoveTLV_dropFirstTag_same (d : List TLV) (t : GoString) :
    RemoveTLV (dropFirstTag t d) t = RemoveTLV d t := by
  induction d with
  | nil => rfl
  | cons f d ih =>
    by_cases hf : f.Tag = t
    · simp only [dropFirstTag, hf, if_true, RemoveTLV_cons_eq f d t hf]
    · simp only [dropFirstTag, hf, if_false, RemoveTLV_cons_ne _ _ t hf, ih]

theorem RemoveTLV_dropFirstTag_comm (d : List TLV) (t u : GoString) (h : t ≠ u) :
    RemoveTLV (dropFirstTag t d) u = dropFirstTag t (RemoveTLV d u) := by
  induction d with
  | nil => rfl
  | cons f d ih =>
    by_cases hf : f.Tag = t
    · have hu : f.Tag ≠ u := fun e => h (hf.symm.trans e)
      simp only [dropFirstTag, hf, if_true, RemoveTLV_cons_ne f d u hu]
    · by_cases hu : f.Tag = u
      · simp only [dropFirstTag, hf, if_false, RemoveTLV_cons_eq _ _ u hu, ih]
      · simp only [dropFirstTag, hf, if_false, RemoveTLV_cons_ne _ _ u hu, ih]

theorem RemoveTLV_replaceFirst_same (d : List TLV) (t v : GoString) :
    RemoveTLV (replaceFirst d t v) t = RemoveTLV d t := by
  induction d with
  | nil => rfl
  | cons f d ih =>
    by_cases hf : f.Tag = t
    · simp only [replaceFirst, hf, if_true]
      rw [RemoveTLV_cons_eq _ _ t rfl, RemoveTLV_cons_eq _ _ t hf]
    · simp only [replaceFirst, hf, if_false, RemoveTLV_cons_ne _ _ t hf, ih]

theorem RemoveTLV_idem (d : List TLV) (t : GoString) :
    RemoveTLV (RemoveTLV d t) t = RemoveTLV d t := by
  simp [RemoveTLV, List.filter_filter]

theorem UpdateCRC_eq (d : List TLV) :
    UpdateCRC d = RemoveTLV d TagCRC ++
      [⟨TagCRC, 4, CalculateCRC (SerializeTLV (RemoveTLV d TagCRC) ++ TagCRC ++ bytes "04"),
        []⟩] := rfl

/-- The fields of `Replace(t, v)` other than the first field tagged `t` and the checksum
fields are those of the original sequence. -/
theorem ReplaceTLVValue_others (d : List TLV) (t v : GoString) :
    RemoveTLV (dropFirstTag t (ReplaceTLVValue d t v)) TagCRC =
      RemoveTLV (dropFirstTag t d) TagCRC := by
  rw [ReplaceTLVValue, UpdateCRC_eq]
  by_cases ht : t = TagCRC
  · subst ht
    rw [RemoveTLV_dropFirstTag_same, RemoveTLV_dropFirstTag_same, RemoveTLV_replaceFirst_same]
    simp [RemoveTLV, List.filter_append, List.filter_filter]
  · have hc : (⟨TagCRC, 4, CalculateCRC (SerializeTLV (RemoveTLV (replaceFirst d t v) TagCRC)
        ++ TagCRC ++ bytes "04"), []⟩ : TLV).Tag ≠ t := fun e => ht e.symm
    rw [dropFirstTag_append_singleton _ _ _ hc, ← RemoveTLV_dropFirstTag_comm _ _ _ ht,
      dropFirstTag_replaceFirst]
    simp [RemoveTLV, List.filter_append, List.filter_filter]

/-- C6. `Replace` touches only its target and the checksum: the (tag, value) pairs of the
fields other than the first field tagged `t` and other than the fields tagged `"63"` are the
same, in the same order, before and after `Replace(t, v)`; and when no field is tagged `t`
the result is `UpdateCRC` of the original sequence. -/
theorem Replace_frame (q : QRIS) (t v : GoString) :
    tagValues (RemoveTLV (dropFirstTag t (q.Replace t v).TLVs) TagCRC) =
        tagValues (RemoveTLV (dropFirstTag t q.TLVs) TagCRC) ∧
      (t ∉ tags q.TLVs → (q.Replace t v).TLVs = UpdateCRC q.TLVs) := by
  constructor
  · show tagValues (RemoveTLV (dropFirstTag t (ReplaceTLVValue q.TLVs t v)) TagCRC) = _
    rw [ReplaceTLVValue_others]
  · intro h
    show ReplaceTLVValue q.TLVs t v = _
    rw [ReplaceTLVValue, replaceFirst_of_not_mem _ _ _ h]

/-- The witness of C6: the sample document has no field tagged `"54"`, so replacing under
that tag only recomputes the checksum. -/
theorem Replace_frame_witness :
    (sampleQRIS.Replace TagTransactionAmount (bytes "100")).TLVs = UpdateCRC sampleQRIS.TLVs :=
  (Replace_frame sampleQRIS TagTransactionAmount (bytes "100")).2 (by decide)

/-! ## C7: the position of the replaced field -/

/-- C7 as stated fails when a checksum field precedes the target. The string
`"6304AAAA5901x"` parses into a field tagged `"63"` followed by a field tagged `"59"`, the
first field tagged `"59"` being at index 1; after `Replace("59", "y")` the field at index 1
is tagged `"63"`, and the field tagged `"59"` is at index 0. -/
theorem Replace_position_counterexample :
    ParseTLV (bytes "6304AAAA5901x") =
      .ok [⟨bytes "63", 4, bytes "AAAA", []⟩, ⟨bytes "59", 1, bytes "x", []⟩] ∧
    tags (ReplaceTLVValue [⟨bytes "63", 4, bytes "AAAA", []⟩, ⟨bytes "59", 1, bytes "x", []⟩]
      (bytes "59") (bytes "y")) = [bytes "59", bytes "63"] := by
  decide!

theorem RemoveTLV_of_not_mem (d : List TLV) (t : GoString) (h : ∀ g ∈ d, g.Tag ≠ t) :
    RemoveTLV d t = d := by
  induction d with
  | nil => rfl
  | cons f d ih =>
    rw [RemoveTLV_cons_ne _ _ _ (h f (List.mem_cons_self _ _)),
      ih (fun g hg => h g (List.mem_cons_of_mem _ hg))]

theorem replaceFirst_append (pre post : List TLV) (f : TLV) (t v : GoString)
    (hf : f.Tag = t) (hpre : ∀ g ∈ pre, g.Tag ≠ t) :
    replaceFirst (pre ++ f :: post) t v = pre ++ ⟨f.Tag, v.length, v, []⟩ :: post := by
  induction pre with
  | nil => simp [replaceFirst, hf]
  | cons g pre ih =>
    have hg := hpre g (List.mem_cons_self _ _)
    have ih2 := ih (fun x hx => hpre x (List.mem_cons_of_mem _ hx))
    rw [List.cons_append, replaceFirst]
    simp only [hg, if_false, ih2, List.cons_append]

theorem RemoveTLV_append (a b : List TLV) (t : GoString) :
    RemoveTLV (a ++ b) t = RemoveTLV a t ++ RemoveTLV b t := by
  simp [RemoveTLV, List.filter_append]

/-- C7, amended. `Replace` does not move the target field when the target is not the
checksum and no checksum field precedes it: if the tag `t` is not `"63"` and the first field
tagged `t` is at index `i`, with no field tagged `"63"` before it, then after
`Replace(t, v)` the field at index `i` has tag `t` and value `v`. -/
theorem Replace_keeps_position (pre post : List TLV) (f : TLV) (t v : GoString)
    (ht : t ≠ TagCRC) (hf : f.Tag = t) (hpre : ∀ g ∈ pre, g.Tag ≠ t)
    (hcrc : ∀ g ∈ pre, g.Tag ≠ TagCRC) :
    (ReplaceTLVValue (pre ++ f :: post) t v)[pre.length]? = some ⟨t, v.length, v, []⟩ := by
  have hne : (⟨f.Tag, v.length, v, []⟩ : TLV).Tag ≠ TagCRC := by
    show f.Tag ≠ TagCRC
    rw [hf]; exact ht
  rw [ReplaceTLVValue, replaceFirst_append pre post f t v hf hpre, UpdateCRC_eq,
    RemoveTLV_append, RemoveTLV_of_not_mem pre _ hcrc, RemoveTLV_cons_ne _ _ _ hne,
    List.append_assoc, List.getElem?_append_right (Nat.le_refl _)]
  simp [hf]

/-- The witness of C7: the merchant name of the sample document, the field at index 7. -/
theorem Replace_keeps_position_witness :
    (ReplaceTLVValue sampleFields (bytes "59") (bytes "WarungA"))[7]? =
      some ⟨bytes "59", 7, bytes "WarungA", []⟩ :=
  Replace_keeps_position (sampleFields.take 7) (sampleFields.drop 8)
    ⟨bytes "59", 8, bytes "Toko 816", []⟩ (bytes "59") (bytes "WarungA")
    (by decide) rfl (by decide) (by decide)

/-! ## C8: a non-positive amount -/

/-- C8. With an amount that is zero or negative, whatever the fee, `SetAmountWithOptions`
leaves the document, and so its serialization, as it was. -/
theorem SetAmountWithOptions_nonpositive (q : QRIS) (o : QRISAmountOptions)
    (h : o.Amount ≤ 0) :
    q.SetAmountWithOptions o = q ∧ (q.SetAmountWithOptions o).Serialize = q.Serialize := by
  have : q.SetAmountWithOptions o = q := by
    simp only [QRIS.SetAmountWithOptions, h, if_true]
  rw [this]
  exact ⟨rfl, rfl⟩

/-- The witness of C8: amount zero with a fee on the sample document. -/
theorem SetAmountWithOptions_nonpositive_witness :
    sampleQRIS.SetAmountWithOptions ⟨0, QRISFeeRupiah, 2000⟩ = sampleQRIS ∧
      (sampleQRIS.SetAmountWithOptions ⟨0, QRISFeeRupiah, 2000⟩).Serialize
        = sampleQRIS.Serialize :=
  SetAmountWithOptions_nonpositive sampleQRIS ⟨0, QRISFeeRupiah, 2000⟩ (by decide)

/-! ## C9: static and dynamic documents -/

theorem mem_tags_of_getValue_ne (d : List TLV) (t : GoString) (h : getValue d t ≠ []) :
    t ∈ tags d := by
  induction d with
  | nil => exact absurd rfl h
  | cons f d ih =>
    by_cases hf : f.Tag = t
    · simp [tags, hf]
    · simp only [getValue, hf, if_false] at h
      simp only [tags, List.map_cons, List.mem_cons]
      exact Or.inr (ih h)

theorem getValue_insertBeforeCountry (news : List TLV) (t : GoString)
    (hn : ∀ f ∈ news, f.Tag ≠ t) (d : List TLV) (b : Bool) :
    getValue (insertBeforeCountry news b d) t = getValue d t := by
  induction d generalizing b with
  | nil => rfl
  | cons f d ih =>
    unfold insertBeforeCountry
    split
    · rw [getValue_append_of_not_mem _ _ _ hn]
      simp only [getValue, ih]
    · simp only [getValue, ih]

/-- The tags of the fields `SetAmountWithOptions` inserts. -/
theorem feeField_tag (o : QRISAmountOptions) :
    ∀ f ∈ (feeField o).toList, f.Tag = TagFeeRupiah ∨ f.Tag = TagFeePercent := by
  intro f hf
  unfold feeField at hf
  split at hf
  · simp only [Option.toList, List.mem_singleton] at hf
    exact Or.inl (by rw [hf])
  · split at hf
    · simp only [Option.toList, List.mem_singleton] at hf
      exact Or.inr (by rw [hf])
    · simp [Option.toList] at hf

/-- The fields of a document after `SetAmountWithOptions` with a positive amount. -/
theorem SetAmountWithOptions_TLVs (q : QRIS) (o : QRISAmountOptions) (h : 0 < o.Amount) :
    (q.SetAmountWithOptions o).TLVs =
      UpdateCRC (insertBeforeCountry
        (⟨TagTransactionAmount, (Itoa o.Amount).length, Itoa o.Amount, []⟩ ::
          (feeField o).toList) false
        (RemoveTLVPrefix
          (RemoveTLV (ReplaceTLVValue q.TLVs TagPointOfInitiation POIMDynamic)
            TagTransactionAmount) (bytes "55"))) := by
  have hn : ¬ o.Amount ≤ 0 := by omega
  simp only [QRIS.SetAmountWithOptions, hn, if_false]

/-- After `SetAmountWithOptions` with a positive amount the point of initiation reads
`"12"`, when the document has such a field. -/
theorem Get_POI_SetAmountWithOptions (q : QRIS) (o : QRISAmountOptions) (h : 0 < o.Amount)
    (hm : TagPointOfInitiation ∈ tags q.TLVs) :
    (q.SetAmountWithOptions o).Get TagPointOfInitiation = POIMDynamic := by
  have h63 : TagPointOfInitiation ≠ TagCRC := by decide
  have hnews : ∀ f ∈ (⟨TagTransactionAmount, (Itoa o.Amount).length, Itoa o.Amount, []⟩ ::
      (feeField o).toList : List TLV), f.Tag ≠ TagPointOfInitiation := by
    intro f hf
    rcases List.mem_cons.1 hf with rfl | hf
    · show TagTransactionAmount ≠ TagPointOfInitiation
      decide
    · rcases feeField_tag o f hf with e | e <;> rw [e] <;> decide
  unfold QRIS.Get
  rw [SetAmountWithOptions_TLVs q o h, getValue_UpdateCRC _ _ h63,
    getValue_insertBeforeCountry _ _ hnews, RemoveTLVPrefix, getValue_filter, RemoveTLV,
    getValue_filter, ReplaceTLVValue, getValue_UpdateCRC _ _ h63,
    getValue_replaceFirst_same _ _ _ hm]
  · intro f hf
    rw [hf]; decide
  · intro f hf
    rw [hf]; decide

/-- C9. A document whose first point-of-initiation field (tag `"01"`) has the value `"11"`
is static and not dynamic; after `SetAmountWithOptions` with a positive amount it is dynamic
and not static. -/
theorem static_becomes_dynamic (q : QRIS) (h : q.Get TagPointOfInitiation = POIMStatic) :
    q.IsStatic = true ∧ q.IsDynamic = false ∧
      ∀ o : QRISAmountOptions, 0 < o.Amount →
        (q.SetAmountWithOptions o).IsDynamic = true ∧
        (q.SetAmountWithOptions o).IsStatic = false := by
  have hm : TagPointOfInitiation ∈ tags q.TLVs := by
    apply mem_tags_of_getValue_ne
    have h' : getValue q.TLVs TagPointOfInitiation = POIMStatic := h
    rw [h']; decide
  refine ⟨?_, ?_, ?_⟩
  · simp only [QRIS.IsStatic, h, decide_True]
  · simp only [QRIS.IsDynamic, h]; decide
  · intro o ho
    have hd := Get_POI_SetAmountWithOptions q o ho hm
    constructor
    · simp only [QRIS.IsDynamic, hd, decide_True]
    · simp only [QRIS.IsStatic, hd]; decide

set_option maxRecDepth 10000 in
/-- The witness of C9: the sample document parses, is static, and becomes dynamic with the
amount of the tests. -/
theorem static_becomes_dynamic_witness :
    NewQRISFromString sampleQRISRaw = .ok sampleQRIS ∧
    sampleQRIS.IsStatic = true ∧ sampleQRIS.IsDynamic = false ∧
    (sampleQRIS.SetAmountWithOptions ⟨15000, QRISFeeRupiah, 2000⟩).IsDynamic = true ∧
    (sampleQRIS.SetAmountWithOptions ⟨15000, QRISFeeRupiah, 2000⟩).IsStatic = false :=
  have h := static_becomes_dynamic sampleQRIS (by decide)
  ⟨by rfl, h.1, h.2.1, h.2.2 ⟨15000, QRISFeeRupiah, 2000⟩ (by decide)⟩

/-! ## C10: where the amount and the fee go -/

/-- The conversion `int(x)` of a whole, non-negative `float64` below `2^63` is its value. -/
theorem floatToInt_natCast (f : Nat) (hf : (f : Int) < 2 ^ 63) :
    floatToInt (Float64.finite (f : Rat)) = (f : Int) := by
  have h0 : -(2 : Int) ^ 63 ≤ (f : Int) := by
    have : (0 : Int) ≤ (f : Int) := Int.ofNat_nonneg f
    omega
  simp only [floatToInt, Rat.num_natCast, Rat.den_natCast, Nat.cast_one, Int.tdiv_one]
  rw [if_pos ⟨h0, hf⟩]

theorem insertBeforeCountry_true (news d : List TLV) :
    insertBeforeCountry news true d = d := by
  induction d with
  | nil => rfl
  | cons f d ih =>
    unfold insertBeforeCountry
    simp [ih]

theorem insertBeforeCountry_split (news pre post : List TLV) (c : TLV)
    (hc : c.Tag = TagCountryCode) (hpre : ∀ g ∈ pre, g.Tag ≠ TagCountryCode) :
    insertBeforeCountry news false (pre ++ c :: post) = pre ++ (news ++ c :: post) := by
  induction pre with
  | nil =>
    rw [List.nil_append, insertBeforeCountry]
    simp [hc, insertBeforeCountry_true]
  | cons g pre ih =>
    have hg := hpre g (List.mem_cons_self _ _)
    have ih2 := ih (fun x hx => hpre x (List.mem_cons_of_mem _ hx))
    rw [List.cons_append, insertBeforeCountry]
    simp only [hg, false_and, if_false, ih2, List.cons_append]

theorem exists_first_tag (d : List TLV) (u : GoString) (h : u ∈ tags d) :
    ∃ pre c post, d = pre ++ c :: post ∧ c.Tag = u ∧ ∀ g ∈ pre, g.Tag ≠ u := by
  induction d with
  | nil => simp [tags] at h
  | cons f d ih =>
    by_cases hf : f.Tag = u
    · exact ⟨[], f, d, rfl, hf, by simp⟩
    · have hu : u ∈ tags d := by
        simp only [tags, List.map_cons, List.mem_cons] at h
        rcases h with h | h
        · exact absurd h.symm hf
        · exact h
      obtain ⟨pre, c, post, hd, hc, hpre⟩ := ih hu
      refine ⟨f :: pre, c, post, by rw [hd]; rfl, hc, ?_⟩
      intro g hg
      rcases List.mem_cons.1 hg with rfl | hg
      · exact hf
      · exact hpre g hg

theorem mem_tags_filter (p : TLV → Bool) (d : List TLV) (u : GoString)
    (hp : ∀ f, f.Tag = u → p f = true) (h : u ∈ tags d) : u ∈ tags (d.filter p) := by
  simp only [tags, List.mem_map, List.mem_filter] at h ⊢
  obtain ⟨f, hf, hu⟩ := h
  exact ⟨f, ⟨hf, hp f hu⟩, hu⟩

/-- The shape of the field sequence after `SetAmountWithOptions` with a positive amount on a
document with a country-code field: the new fields `news` stand right before the first field
tagged `"58"`, and no other field is tagged `"54"` or has a tag starting with `"55"`. -/
theorem SetAmountWithOptions_shape (q : QRIS) (o : QRISAmountOptions)
    (h58 : TagCountryCode ∈ tags q.TLVs) (hA : 0 < o.Amount) :
    ∃ pre c post,
      (q.SetAmountWithOptions o).TLVs =
        pre ++ (⟨TagTransactionAmount, (Itoa o.Amount).length, Itoa o.Amount, []⟩ ::
          (feeField o).toList) ++ c :: post ∧
      c.Tag = TagCountryCode ∧
      (∀ g ∈ pre, g.Tag ≠ TagCountryCode ∧ g.Tag ≠ TagTransactionAmount ∧
        HasPrefix g.Tag (bytes "55") = false) ∧
      (∀ g ∈ post, g.Tag ≠ TagTransactionAmount ∧ HasPrefix g.Tag (bytes "55") = false) := by
  have hmem : TagCountryCode ∈ tags (RemoveTLVPrefix
      (RemoveTLV (ReplaceTLVValue q.TLVs TagPointOfInitiation POIMDynamic)
        TagTransactionAmount) (bytes "55")) := by
    apply mem_tags_filter
    · intro f hf; rw [hf]; decide
    · apply mem_tags_filter
      · intro f hf; rw [hf]; decide
      · exact (mem_tags_ReplaceTLVValue _ _ _ _ (by decide)).2 h58
  have hall : ∀ g ∈ RemoveTLVPrefix
      (RemoveTLV (ReplaceTLVValue q.TLVs TagPointOfInitiation POIMDynamic)
        TagTransactionAmount) (bytes "55"),
      g.Tag ≠ TagTransactionAmount ∧ HasPrefix g.Tag (bytes "55") = false := by
    intro g hg
    have h1 := List.mem_filter.1 hg
    have h2 := List.mem_filter.1 h1.1
    exact ⟨by simpa using h2.2, by simpa using h1.2⟩
  obtain ⟨pre, c, post, hd, hc, hpre⟩ := exists_first_tag _ _ hmem
  rw [hd] at hall
  have hnews : ∀ g ∈ (⟨TagTransactionAmount, (Itoa o.Amount).length, Itoa o.Amount, []⟩ ::
      (feeField o).toList : List TLV), g.Tag ≠ TagCRC := by
    intro g hg
    rcases List.mem_cons.1 hg with rfl | hg
    · show TagTransactionAmount ≠ TagCRC
      decide
    · rcases feeField_tag o g hg with e | e <;> rw [e] <;> decide
  have hc63 : c.Tag ≠ TagCRC := by rw [hc]; decide
  refine ⟨RemoveTLV pre TagCRC, c, RemoveTLV post TagCRC ++
    [⟨TagCRC, 4, CalculateCRC (SerializeTLV (RemoveTLV (pre ++
      ((⟨TagTransactionAmount, (Itoa o.Amount).length, Itoa o.Amount, []⟩ ::
        (feeField o).toList) ++ c :: post)) TagCRC) ++ TagCRC ++ bytes "04"), []⟩], ?_, hc, ?_, ?_⟩
  · rw [SetAmountWithOptions_TLVs q o hA, hd, insertBeforeCountry_split _ _ _ _ hc hpre,
      UpdateCRC_eq, RemoveTLV_append, RemoveTLV_append, RemoveTLV_of_not_mem _ _ hnews,
      RemoveTLV_cons_ne _ _ _ hc63]
    simp only [List.append_assoc, List.cons_append]
  · intro g hg
    have hg' : g ∈ pre := (List.mem_filter.1 hg).1
    have := hall g (List.mem_append_left _ hg')
    exact ⟨hpre g hg', this.1, this.2⟩
  · intro g hg
    rcases List.mem_append.1 hg with hg | hg
    · have hg' : g ∈ post := (List.mem_filter.1 hg).1
      exact hall g (List.mem_append_right _ (List.mem_cons_of_mem _ hg'))
    · rw [List.mem_singleton.1 hg]
      show TagCRC ≠ TagTransactionAmount ∧ HasPrefix TagCRC (bytes "55") = false
      decide


/-- C10 as stated fails for a whole fee that does not fit an `int`: on the sample document,
which has a country-code field, with the amount 15000 and the fixed-currency fee
`2^63 = 9223372036854775808`, the value of the fee field is `"-9223372036854775808"` and not
the decimal rendering of the fee. -/
theorem SetAmountWithOptions_fee_counterexample :
    TagCountryCode ∈ tags sampleQRIS.TLVs ∧
    (sampleQRIS.SetAmountWithOptions
      ⟨15000, QRISFeeRupiah, Float64.finite 9223372036854775808⟩).Get TagFeeRupiah
        = bytes "-9223372036854775808" ∧
    Itoa 9223372036854775808 = bytes "9223372036854775808" := by
  decide!

set_option maxRecDepth 10000 in
/-- C10, amended. On a document with a country-code field (tag `"58"`),
`SetAmountWithOptions` with a positive amount and the fixed-currency fee type with a whole,
non-negative fee `f` below `2^63` (so that it fits an `int`) leaves exactly one field tagged
`"54"`, whose value is the decimal rendering of the amount, immediately followed by the only
field whose tag starts with `"55"`, which has tag `"55020256"` and value the decimal
rendering of `f`, immediately followed by the first field tagged `"58"`. With the fee type
none the amount field alone immediately precedes the first field tagged `"58"`. For the
input of the tests the serialization starts with `"000201010212"` and contains `"540515000"`
and `"55020256"`. -/
theorem SetAmountWithOptions_inserts (q : QRIS) (o : QRISAmountOptions) (f : Nat)
    (h58 : TagCountryCode ∈ tags q.TLVs) (hA : 0 < o.Amount) :
    (o.FeeType = QRISFeeRupiah → o.FeeValue = Float64.finite (f : Rat) →
      (f : Int) < 2 ^ 63 →
      ∃ pre c post,
        (q.SetAmountWithOptions o).TLVs =
          pre ++ [⟨TagTransactionAmount, (Itoa o.Amount).length, Itoa o.Amount, []⟩,
            ⟨TagFeeRupiah, (Itoa f).length, Itoa f, []⟩, c] ++ post ∧
        c.Tag = TagCountryCode ∧
        (∀ g ∈ pre, g.Tag ≠ TagCountryCode ∧ g.Tag ≠ TagTransactionAmount ∧
          HasPrefix g.Tag (bytes "55") = false) ∧
        (∀ g ∈ post, g.Tag ≠ TagTransactionAmount ∧ HasPrefix g.Tag (bytes "55") = false)) ∧
    (o.FeeType = QRISFeeNone →
      ∃ pre c post,
        (q.SetAmountWithOptions o).TLVs =
          pre ++ [⟨TagTransactionAmount, (Itoa o.Amount).length, Itoa o.Amount, []⟩, c]
            ++ post ∧
        c.Tag = TagCountryCode ∧
        (∀ g ∈ pre, g.Tag ≠ TagCountryCode ∧ g.Tag ≠ TagTransactionAmount ∧
          HasPrefix g.Tag (bytes "55") = false) ∧
        (∀ g ∈ post, g.Tag ≠ TagTransactionAmount ∧ HasPrefix g.Tag (bytes "55") = false)) ∧
    ((sampleQRIS.SetAmountWithOptions ⟨15000, QRISFeeRupiah, 2000⟩).Serialize.take 12
        = bytes "000201010212" ∧
      stringContains (sampleQRIS.SetAmountWithOptions ⟨15000, QRISFeeRupiah, 2000⟩).Serialize
        (bytes "540515000") = true ∧
      stringContains (sampleQRIS.SetAmountWithOptions ⟨15000, QRISFeeRupiah, 2000⟩).Serialize
        TagFeeRupiah = true) := by
  obtain ⟨pre, c, post, hT, hc, hpre, hpost⟩ := SetAmountWithOptions_shape q o h58 hA
  refine ⟨?_, ?_, ?_⟩
  · intro hR hF hf
    have hfee : feeField o = some ⟨TagFeeRupiah, (Itoa f).length, Itoa f, []⟩ := by
      simp only [feeField, hR, if_true, hF, floatToInt_natCast f hf]
    refine ⟨pre, c, post, ?_, hc, hpre, hpost⟩
    rw [hT, hfee]
    simp [Option.toList]
  · intro hN
    have h1 : ¬ QRISFeeNone = QRISFeeRupiah := by decide
    have h2 : ¬ QRISFeeNone = QRISFeePercent := by decide
    have hfee : feeField o = none := by
      simp only [feeField, hN, h1, h2, if_false]
    refine ⟨pre, c, post, ?_, hc, hpre, hpost⟩
    rw [hT, hfee]
    simp [Option.toList]
  · decide!

set_option maxRecDepth 10000 in
/-- The witness of C10: the amount and fee of the tests on the sample document, which has a
country-code field: the amount field `54` `15000` and the fee field `55020256` `2000` stand
right before it. -/
theorem SetAmountWithOptions_inserts_witness :
    TagCountryCode ∈ tags sampleQRIS.TLVs ∧
    ∃ pre c post,
      (sampleQRIS.SetAmountWithOptions ⟨15000, QRISFeeRupiah, 2000⟩).TLVs =
        pre ++ [⟨TagTransactionAmount, 5, bytes "15000", []⟩,
          ⟨TagFeeRupiah, 4, bytes "2000", []⟩, c] ++ post ∧
      c.Tag = TagCountryCode ∧
      (∀ g ∈ pre, g.Tag ≠ TagCountryCode ∧ g.Tag ≠ TagTransactionAmount ∧
        HasPrefix g.Tag (bytes "55") = false) ∧
      (∀ g ∈ post, g.Tag ≠ TagTransactionAmount ∧ HasPrefix g.Tag (bytes "55") = false) :=
  ⟨by decide,
    (SetAmountWithOptions_inserts sampleQRIS ⟨15000, QRISFeeRupiah, 2000⟩ 2000 (by decide)
      (by decide)).1 rfl rfl (by norm_num)⟩
/-! ## C11: inputs shorter than a segment header -/

/-- C11 as stated fails: on the three-character string `"000"`, and on the empty string,
`ParseTLV` returns no error and an empty field sequence, and `NewQRISFromString` returns a
document. -/
theorem ParseTLV_short_counterexample :
    ParseTLV (bytes "000") = .ok [] ∧ ParseTLV [] = .ok [] ∧
    NewQRISFromString (bytes "000") = .ok ⟨bytes "000", []⟩ := by
  refine ⟨by rfl, by rfl, by rfl⟩

/-- C11, amended. For every string shorter than 4 characters, the empty string included,
`ParseTLV` returns no error and the empty field sequence, and `NewQRISFromString` returns a
document with that string as `Raw` and no field. -/
theorem ParseTLV_short (s : GoString) (h : s.length < 4) :
    ParseTLV s = .ok [] ∧ NewQRISFromString s = .ok ⟨s, []⟩ := by
  have hp : ParseTLV s = .ok [] := by
    rw [ParseTLV_eq]
    simp only [h, if_true]
  exact ⟨hp, by simp only [NewQRISFromString, hp]⟩

/-- The witness of C11: the one-character string `"0"`. -/
theorem ParseTLV_short_witness :
    ParseTLV (bytes "0") = .ok [] ∧ NewQRISFromString (bytes "0") = .ok ⟨bytes "0", []⟩ :=
  ParseTLV_short (bytes "0") (by decide)

/-! ## C12: a declared length beyond the end of the input -/

theorem shiftError_shiftError (a b : Nat) (r : Except Failure (List TLV)) :
    shiftError a (shiftError b r) = shiftError (a + b) r := by
  cases r with
  | ok x => rfl
  | error e => cases e <;> simp [shiftError, Nat.add_assoc]

theorem shiftError_error (k : Nat) (r : Except Failure (List TLV)) (e : Failure)
    (h : r = .error e) : ∃ e1, shiftError k r = .error e1 := by
  subst h
  cases e <;> exact ⟨_, rfl⟩

/-- When the loop arrives at index `i`, an error or panic of the rest of the loop is the
outcome of the whole call. -/
theorem ParseTLV_of_Reaches (s : GoString) (i : Nat) (h : Reaches s i) (e : Failure)
    (he : shiftError i (ParseTLV (s.drop i)) = .error e) : ParseTLV s = .error e := by
  induction h generalizing e with
  | start =>
    have he' : shiftError 0 (ParseTLV s) = .error e := he
    cases hP : ParseTLV s with
    | ok r => rw [hP] at he'; simp [shiftError] at he'
    | error e1 =>
      rw [hP] at he'
      cases e1 <;> simpa [shiftError] using he'
  | step i length sub _ h4 hA h0 hle hN ih =>
    apply ih
    rw [ParseTLV_eq (s.drop i)]
    have h4' : ¬ (s.drop i).length < 4 := by omega
    have h1 : ¬ (((s.drop i).length : Int) < 4 + length) := by omega
    have h2 : ¬ length < 0 := by omega
    simp only [h4', if_false, hA, h1, h2, hN, List.drop_drop]
    have hidx : i + (4 + length.toNat) = i + 4 + length.toNat := by omega
    rw [hidx]
    cases hP : ParseTLV (s.drop (i + 4 + length.toNat)) with
    | ok more => rw [hP] at he; simp [shiftError] at he
    | error e1 =>
      rw [hP] at he
      cases e1 with
      | invalidSegment j =>
        simp only [shiftError, Except.error.injEq] at he ⊢
        subst he
        simp only [Failure.invalidSegment.injEq]
        omega
      | sliceBounds =>
        simp only [shiftError, Except.error.injEq] at he ⊢
        exact he
      | outOfFuel =>
        simp only [shiftError, Except.error.injEq] at he ⊢
        exact he

/-- C12. When the scan of `ParseTLV` reaches, at index `i`, a segment whose length
characters declare more characters than remain after its 4-character header, `ParseTLV`
returns the error (of that index) and no field, and `NewQRISFromString` returns the error
and no document: the segments read before are not returned. -/
theorem ParseTLV_length_overrun (s : GoString) (i : Nat) (length : Int)
    (hreach : Reaches s i) (h4 : 4 ≤ (s.drop i).length)
    (hA : Atoi (slice (s.drop i) 2 4) = some length)
    (hover : ((s.drop i).length : Int) < 4 + length) :
    ParseTLV s = .error (.invalidSegment i) ∧
      NewQRISFromString s = .error (.invalidSegment i) := by
  have hp : ParseTLV s = .error (.invalidSegment i) := by
    apply ParseTLV_of_Reaches s i hreach
    rw [ParseTLV_eq (s.drop i)]
    have h4' : ¬ (s.drop i).length < 4 := by omega
    simp only [h4', if_false, hA, hover, if_true, shiftError, Nat.add_zero]
  exact ⟨hp, by simp only [NewQRISFromString, hp]⟩

/-- The witness of C12: in `"0002010105ab"` the segment `00 02 01` is read, and the segment
at index 6 declares 5 characters where 2 remain. -/
theorem ParseTLV_length_overrun_witness :
    ParseTLV (bytes "0002010105ab") = .error (.invalidSegment 6) ∧
      NewQRISFromString (bytes "0002010105ab") = .error (.invalidSegment 6) :=
  ParseTLV_length_overrun (bytes "0002010105ab") 6 5
    (Reaches.step 0 2 [] Reaches.start (by decide) (by decide) (by decide) (by decide)
      (by decide))
    (by decide) (by decide) (by decide)

/-! ## C13: removing fields -/

/-- The loop of `RemoveTLV`, which appends the kept fields to `result` one by one, computes
the filter of the embedding; so does the loop of `RemoveTLVPrefix`. -/
theorem foldl_append_eq_filter (p : TLV → Bool) (d acc : List TLV) :
    d.foldl (fun result tlv => if p tlv then result ++ [tlv] else result) acc =
      acc ++ d.filter p := by
  induction d generalizing acc with
  | nil => simp
  | cons f d ih =>
    by_cases hp : p f = true
    · simp [List.foldl_cons, List.filter_cons, hp, ih]
    · simp [List.foldl_cons, List.filter_cons, hp, ih]

/-- C13. `RemoveTLV d t` is the sub-sequence of `d` of the fields whose tag differs from
`t`, and `RemoveTLVPrefix d p` the sub-sequence of the fields whose tag does not start with
`p`: each is what the loop of the source builds, a sub-sequence of `d` (the survivors are
fields of `d`, unchanged and in their order, so no field, and no checksum, is added,
altered or recomputed), holds no matching field, and holds every field of `d` that does not
match. -/
theorem RemoveTLV_subsequence (d : List TLV) (t p : GoString) :
    (d.foldl (fun result tlv => if tlv.Tag ≠ t then result ++ [tlv] else result) []
        = RemoveTLV d t ∧
      d.foldl (fun result tlv => if !HasPrefix tlv.Tag p then result ++ [tlv] else result) []
        = RemoveTLVPrefix d p) ∧
    (RemoveTLV d t = d.filter (fun f => f.Tag ≠ t) ∧
      RemoveTLVPrefix d p = d.filter (fun f => !HasPrefix f.Tag p)) ∧
    ((RemoveTLV d t).Sublist d ∧ (RemoveTLVPrefix d p).Sublist d) ∧
    ((∀ f ∈ RemoveTLV d t, f.Tag ≠ t) ∧
      (∀ f ∈ RemoveTLVPrefix d p, HasPrefix f.Tag p = false)) ∧
    ((∀ f ∈ d, f.Tag ≠ t → f ∈ RemoveTLV d t) ∧
      (∀ f ∈ d, HasPrefix f.Tag p = false → f ∈ RemoveTLVPrefix d p)) := by
  refine ⟨⟨?_, ?_⟩, ⟨rfl, rfl⟩, ⟨List.filter_sublist _, List.filter_sublist _⟩, ⟨?_, ?_⟩,
    ⟨?_, ?_⟩⟩
  · have h := foldl_append_eq_filter (fun tlv => decide (tlv.Tag ≠ t)) d []
    simpa [RemoveTLV] using h
  · have h := foldl_append_eq_filter (fun tlv => !HasPrefix tlv.Tag p) d []
    simpa [RemoveTLVPrefix] using h
  · intro f hf
    simpa using (List.mem_filter.1 hf).2
  · intro f hf
    simpa using (List.mem_filter.1 hf).2
  · intro f hf ht
    exact List.mem_filter.2 ⟨hf, by simpa using ht⟩
  · intro f hf hp
    exact List.mem_filter.2 ⟨hf, by simpa using hp⟩

/-! ## C14: the length invariant -/

theorem lenOkList_cons (f : TLV) (d : List TLV) :
    lenOkList (f :: d) = (f.lenOk && lenOkList d) := by
  rw [lenOkList]

theorem TLV.lenOk_eq (f : TLV) :
    f.lenOk = (decide (f.Len = (f.Value.length : Int)) && lenOkList f.Sub) := by
  cases f
  rw [TLV.lenOk]

theorem nestedParse_ok (tag value : GoString) (sub : List TLV)
    (h : nestedParse tag value = .ok sub) : sub = [] ∨ ParseTLV value = .ok sub := by
  unfold nestedParse at h
  split at h
  · cases hP : ParseTLV value with
    | ok r =>
      rw [hP] at h
      simp only [dropError, Except.ok.injEq] at h
      exact Or.inr (by rw [h])
    | error e =>
      rw [hP] at h
      cases e with
      | invalidSegment j =>
        simp only [dropError, Except.ok.injEq] at h
        exact Or.inl h.symm
      | sliceBounds => simp [dropError] at h
      | outOfFuel => simp [dropError] at h
  · simp only [Except.ok.injEq] at h
    exact Or.inl h.symm

/-- Every field `ParseTLV` returns, nested sub-fields included, has `Len` equal to the
length of its `Value`. -/
theorem ParseTLV_lenOk (s : GoString) (fs : List TLV) (h : ParseTLV s = .ok fs) :
    lenOkList fs = true := by
  induction' hn : s.length using Nat.strong_induction_on with n ih generalizing s fs
  rcases ParseTLV_ok_inv s fs h with ⟨_, rfl⟩ | ⟨f, more, rfl, hle, _, _, _, _, _, hval, hvl,
    hN, hR⟩
  · rfl
  · have ihm := ih (s.drop (4 + f.Value.length)).length
      (by simp only [List.length_drop]; omega) _ more hR rfl
    have hsub : lenOkList f.Sub = true := by
      rcases nestedParse_ok _ _ _ hN with h0 | hP
      · rw [h0]; rfl
      · exact ih f.Value.length (by omega) _ _ hP rfl
    rw [lenOkList_cons, TLV.lenOk_eq, ihm, hsub]
    simp [hvl.symm]

theorem TopLenOk_UpdateCRC (d : List TLV) (h : TopLenOk d) : TopLenOk (UpdateCRC d) := by
  intro f hf
  rw [UpdateCRC_eq] at hf
  rcases List.mem_append.1 hf with hf | hf
  · exact h f (List.mem_filter.1 hf).1
  · rw [List.mem_singleton.1 hf]
    simp [CalculateCRC_length]

theorem TopLenOk_replaceFirst (d : List TLV) (t v : GoString) (h : TopLenOk d) :
    TopLenOk (replaceFirst d t v) := by
  induction d with
  | nil => exact h
  | cons g d ih =>
    have hd : TopLenOk d := fun f hf => h f (List.mem_cons_of_mem _ hf)
    intro f hf
    unfold replaceFirst at hf
    split at hf
    · rcases List.mem_cons.1 hf with rfl | hf
      · rfl
      · exact hd f hf
    · rcases List.mem_cons.1 hf with rfl | hf
      · exact h f (List.mem_cons_self _ _)
      · exact ih hd f hf

theorem TopLenOk_ReplaceTLVValue (d : List TLV) (t v : GoString) (h : TopLenOk d) :
    TopLenOk (ReplaceTLVValue d t v) :=
  TopLenOk_UpdateCRC _ (TopLenOk_replaceFirst d t v h)

theorem TopLenOk_filter (p : TLV → Bool) (d : List TLV) (h : TopLenOk d) :
    TopLenOk (d.filter p) :=
  fun f hf => h f (List.mem_filter.1 hf).1

theorem mem_insertBeforeCountry (news d : List TLV) (b : Bool) (f : TLV)
    (h : f ∈ insertBeforeCountry news b d) : f ∈ news ∨ f ∈ d := by
  induction d generalizing b with
  | nil => simp [insertBeforeCountry] at h
  | cons g d ih =>
    unfold insertBeforeCountry at h
    split at h
    · rcases List.mem_append.1 h with h | h
      · exact Or.inl h
      · rcases List.mem_cons.1 h with rfl | h
        · exact Or.inr (List.mem_cons_self _ _)
        · rcases ih _ h with h | h
          · exact Or.inl h
          · exact Or.inr (List.mem_cons_of_mem _ h)
    · rcases List.mem_cons.1 h with rfl | h
      · exact Or.inr (List.mem_cons_self _ _)
      · rcases ih _ h with h | h
        · exact Or.inl h
        · exact Or.inr (List.mem_cons_of_mem _ h)

theorem TopLenOk_amountFields (o : QRISAmountOptions) : TopLenOk (amountFields o) := by
  intro f hf
  rcases List.mem_cons.1 hf with rfl | hf
  · rfl
  · unfold feeField at hf
    split at hf
    · simp only [Option.toList, List.mem_singleton] at hf
      rw [hf]
    · split at hf
      · simp only [Option.toList, List.mem_singleton] at hf
        rw [hf]
      · simp [Option.toList] at hf

/-- C14. Length invariant: every field of a sequence a successful `ParseTLV` returns, at
the top level and nested, has `Len` equal to the length of its `Value`; and the property
that every top-level field has `Len` equal to the length of its `Value` is preserved by
`ReplaceTLVValue`, `UpdateCRC`, `RemoveTLV`, `RemoveTLVPrefix`, `SetMerchantName`,
`SetMerchantCityAndPostalCode` and `SetAmountWithOptions`. -/
theorem length_invariant :
    (∀ (s : GoString) (fs : List TLV), ParseTLV s = .ok fs → lenOkList fs = true) ∧
    (∀ (d : List TLV) (t v : GoString), TopLenOk d → TopLenOk (ReplaceTLVValue d t v)) ∧
    (∀ d : List TLV, TopLenOk d → TopLenOk (UpdateCRC d)) ∧
    (∀ (d : List TLV) (t : GoString), TopLenOk d → TopLenOk (RemoveTLV d t)) ∧
    (∀ (d : List TLV) (p : GoString), TopLenOk d → TopLenOk (RemoveTLVPrefix d p)) ∧
    (∀ (q : QRIS) (n : GoString), TopLenOk q.TLVs → TopLenOk (q.SetMerchantName n).TLVs) ∧
    (∀ (q : QRIS) (c p : GoString), TopLenOk q.TLVs →
      TopLenOk (q.SetMerchantCityAndPostalCode c p).TLVs) ∧
    (∀ (q : QRIS) (o : QRISAmountOptions), TopLenOk q.TLVs →
      TopLenOk (q.SetAmountWithOptions o).TLVs) := by
  refine ⟨ParseTLV_lenOk, TopLenOk_ReplaceTLVValue, TopLenOk_UpdateCRC,
    fun d t h => TopLenOk_filter _ d h, fun d p h => TopLenOk_filter _ d h, ?_, ?_, ?_⟩
  · intro q n h
    exact TopLenOk_ReplaceTLVValue _ _ _ h
  · intro q c p h
    exact TopLenOk_ReplaceTLVValue _ _ _ (TopLenOk_ReplaceTLVValue _ _ _ h)
  · intro q o h
    unfold QRIS.SetAmountWithOptions
    split
    · exact h
    · apply TopLenOk_UpdateCRC
      intro f hf
      rcases mem_insertBeforeCountry _ _ _ _ hf with hf | hf
      · exact TopLenOk_amountFields o f hf
      · exact TopLenOk_filter _ _ (TopLenOk_filter _ _ (TopLenOk_ReplaceTLVValue _ _ _ h)) f hf

set_option maxRecDepth 10000 in
/-- The witness of C14: the fields parsed from the sample payload satisfy the invariant at
every level, and still do at the top level after the amount of the tests is set. -/
theorem length_invariant_witness :
    lenOkList sampleFields = true ∧
    TopLenOk (sampleQRIS.SetAmountWithOptions ⟨15000, QRISFeeRupiah, 2000⟩).TLVs :=
  ⟨length_invariant.1 sampleQRISRaw sampleFields (by rfl),
    length_invariant.2.2.2.2.2.2.2 sampleQRIS ⟨15000, QRISFeeRupiah, 2000⟩
      (by unfold TopLenOk; decide)⟩

/-! ## C15: the wire format of serialization -/

/-- C15 as stated fails for a value of 100 bytes or more: the length of a value of 100
bytes is serialized as the three characters `100`, so the field takes 105 bytes and not
104. -/
theorem SerializeTLV_wire_counterexample :
    Sprintf02d 100 = bytes "100" ∧
    SerializeTLV [⟨bytes "59", 100, List.replicate 100 97, []⟩] =
      bytes "59" ++ bytes "100" ++ List.replicate 100 97 ∧
    (SerializeTLV [⟨bytes "59", 100, List.replicate 100 97, []⟩]).length = 105 := by
  decide

set_option maxRecDepth 100000 in
theorem Sprintf02d_eq_twoDigits : ∀ n : Nat, n < 100 →
    Sprintf02d n = twoDigits n ∧ (twoDigits n).length = 2 ∧
      (twoDigits n).all isDigit = true ∧ digitsValue (twoDigits n) = n := by
  decide

theorem SerializeTLV_congr (d e : List TLV) (h : tagValues e = tagValues d) :
    SerializeTLV e = SerializeTLV d := by
  induction d generalizing e with
  | nil =>
    cases e with
    | nil => rfl
    | cons g e => simp [tagValues] at h
  | cons f d ih =>
    cases e with
    | nil => simp [tagValues] at h
    | cons g e =>
      simp only [tagValues, List.map_cons, List.cons.injEq, Prod.mk.injEq] at h
      obtain ⟨⟨ht, hv⟩, hrest⟩ := h
      rw [SerializeTLV, SerializeTLV, ht, hv, ih e hrest]

/-- C15, amended. Wire format of serialization: for every field sequence whose values are at
most 99 bytes long, `SerializeTLV` returns the concatenation, in order, of
`tag ++ LL ++ value` for each field, where `LL` is exactly two decimal digits, zero-padded,
encoding the current length of the value; and, for every field sequence, the stored `Len`
and the `Sub` sub-fields have no influence on the output. -/
theorem SerializeTLV_wire (d : List TLV) (h : ∀ f ∈ d, f.Value.length ≤ 99) :
    SerializeTLV d = wireFormat d ∧
    (∀ f ∈ d, (twoDigits f.Value.length).length = 2 ∧
      (twoDigits f.Value.length).all isDigit = true ∧
      digitsValue (twoDigits f.Value.length) = f.Value.length) ∧
    (∀ e : List TLV, tagValues e = tagValues d → SerializeTLV e = SerializeTLV d) := by
  refine ⟨?_, ?_, fun e he => SerializeTLV_congr d e he⟩
  · induction d with
    | nil => rfl
    | cons f d ih =>
      have hf : f.Value.length < 100 := by
        have := h f (List.mem_cons_self _ _)
        omega
      have ihd := ih (fun g hg => h g (List.mem_cons_of_mem _ hg))
      simp only [wireFormat, List.map_cons, List.flatten_cons] at ihd ⊢
      rw [SerializeTLV, ihd, (Sprintf02d_eq_twoDigits _ hf).1]
  · intro f hf
    have hlt : f.Value.length < 100 := by
      have := h f hf
      omega
    exact (Sprintf02d_eq_twoDigits _ hlt).2

set_option maxRecDepth 10000 in
/-- The witness of C15: the fields of the sample payload, whose values are at most 57 bytes
long, serialize to the sample payload. -/
theorem SerializeTLV_wire_witness :
    SerializeTLV sampleFields = wireFormat sampleFields ∧ wireFormat sampleFields = sampleQRISRaw :=
  ⟨(SerializeTLV_wire sampleFields (by decide)).1, by decide⟩

/-! ## C16: lengths that are not two digits -/

/-- C16, at the input `"00-1"`. `strconv.Atoi("-1")` is `-1` with no error; the test
`i+4+length > len(s)` is `3 > 4`, so the segment is not rejected, and the slice `s[4:3]`
panics: `ParseTLV`, and with it `NewQRISFromString`, ends by a run-time failure and not by
the format error; the panic of a nested call is not caught either (`"260400-1"`). Likewise
the length characters `"+1"` are accepted as the length 1. -/
theorem ParseTLV_negative_length_panics :
    Atoi (bytes "-1") = some (-1) ∧
    ParseTLV (bytes "00-1") = .error .sliceBounds ∧
    NewQRISFromString (bytes "00-1") = .error .sliceBounds ∧
    ParseTLV (bytes "260400-1") = .error .sliceBounds ∧
    ParseTLV (bytes "00+1a") = .ok [⟨bytes "00", 1, bytes "a", []⟩] := by
  refine ⟨by decide, by rfl, by rfl, by rfl, by rfl⟩

/-! ## C17: the error of a nested parse -/

/-- C17. Nested-parse failure is swallowed: for a two-character tag `t` within
`"26"`..`"51"`, a value `v` of at most 99 characters on which `ParseTLV` returns the format
error, and a rest on which `ParseTLV` succeeds, `ParseTLV (t ++ LL ++ v ++ rest)` succeeds,
its first field has tag `t`, value `v` and no sub-field, and the other fields are those of
the rest. For a tag outside the range the same holds for every value `v`, whatever
`ParseTLV` does on it: the value is not parsed. -/
theorem nested_error_swallowed (t v rest : GoString) (more : List TLV)
    (ht : t.length = 2) (hv : v.length ≤ 99) (hrest : ParseTLV rest = .ok more) :
    (inMerchantRange t = true → (∃ k, ParseTLV v = .error (.invalidSegment k)) →
      ParseTLV (t ++ Sprintf02d v.length ++ v ++ rest) =
        .ok (⟨t, v.length, v, []⟩ :: more)) ∧
    (inMerchantRange t = false →
      ParseTLV (t ++ Sprintf02d v.length ++ v ++ rest) =
        .ok (⟨t, v.length, v, []⟩ :: more)) := by
  have hv' : v.length < 100 := by omega
  constructor
  · rintro hr ⟨k, hk⟩
    rw [ParseTLV_segment t v rest ht hv', hrest]
    simp only [nestedParse, hr, if_true, hk, dropError, shiftError]
  · intro hr
    rw [ParseTLV_segment t v rest ht hv', hrest]
    simp [nestedParse, hr, shiftError]

/-- The witness of C17: the value `"0005ab"` declares 5 characters where 2 remain, so
`ParseTLV` returns the error on it; under the tag `"26"` it is kept with no sub-field, and
the field `00 02 01` after it is read. -/
theorem nested_error_swallowed_witness :
    ParseTLV (bytes "0005ab") = .error (.invalidSegment 0) ∧
    ParseTLV (bytes "26060005ab000201") =
      .ok [⟨bytes "26", 6, bytes "0005ab", []⟩, ⟨bytes "00", 2, bytes "01", []⟩] :=
  ⟨by rfl,
    (nested_error_swallowed (bytes "26") (bytes "0005ab") (bytes "000201")
      [⟨bytes "00", 2, bytes "01", []⟩] (by decide) (by decide) (by rfl)).1 (by decide)
      ⟨0, by rfl⟩⟩

/-! ## C18: no country-code field -/

theorem insertBeforeCountry_of_not_mem (news d : List TLV) (b : Bool)
    (h : ∀ f ∈ d, f.Tag ≠ TagCountryCode) : insertBeforeCountry news b d = d := by
  induction d generalizing b with
  | nil => rfl
  | cons f d ih =>
    have hf := h f (List.mem_cons_self _ _)
    rw [insertBeforeCountry]
    simp only [hf, false_and, if_false]
    rw [ih _ (fun g hg => h g (List.mem_cons_of_mem _ hg))]

theorem getValue_of_not_mem (d : List TLV) (t : GoString) (h : ∀ f ∈ d, f.Tag ≠ t) :
    getValue d t = [] := by
  have := getValue_append_of_not_mem d [] t h
  simpa [getValue] using this

theorem not_mem_tags_iff (d : List TLV) (t : GoString) :
    t ∉ tags d ↔ ∀ f ∈ d, f.Tag ≠ t := by
  simp only [tags, List.mem_map, not_exists, not_and]

/-- C18. On a document with no field tagged `"58"`, `SetAmountWithOptions` with a positive
amount inserts nothing: afterwards no field is tagged `"54"` and no tag starts with `"55"`
(so `Get("54")` is empty, and a previous amount or fee is gone), the first field tagged
`"01"`, if any, has the value `"12"`, and the checksum is recomputed as the last field. -/
theorem SetAmountWithOptions_no_country (q : QRIS) (o : QRISAmountOptions)
    (h58 : TagCountryCode ∉ tags q.TLVs) (hA : 0 < o.Amount) :
    (∀ f ∈ (q.SetAmountWithOptions o).TLVs,
      f.Tag ≠ TagTransactionAmount ∧ HasPrefix f.Tag (bytes "55") = false) ∧
    (q.SetAmountWithOptions o).Get TagTransactionAmount = [] ∧
    (TagPointOfInitiation ∈ tags q.TLVs →
      (q.SetAmountWithOptions o).Get TagPointOfInitiation = POIMDynamic) ∧
    (q.SetAmountWithOptions o).TLVs =
      UpdateCRC (RemoveTLVPrefix
        (RemoveTLV (ReplaceTLVValue q.TLVs TagPointOfInitiation POIMDynamic)
          TagTransactionAmount) (bytes "55")) ∧
    (∃ rest, (q.SetAmountWithOptions o).TLVs = rest ++ [⟨TagCRC, 4,
        CalculateCRC (SerializeTLV rest ++ TagCRC ++ bytes "04"), []⟩] ∧
      ∀ f ∈ rest, f.Tag ≠ TagCRC) := by
  have hno : ∀ f ∈ RemoveTLVPrefix
      (RemoveTLV (ReplaceTLVValue q.TLVs TagPointOfInitiation POIMDynamic)
        TagTransactionAmount) (bytes "55"), f.Tag ≠ TagCountryCode := by
    intro f hf hc
    have h1 := (List.mem_filter.1 hf).1
    have h2 := (List.mem_filter.1 h1).1
    have hm : TagCountryCode ∈ tags (ReplaceTLVValue q.TLVs TagPointOfInitiation
        POIMDynamic) := by
      simp only [tags, List.mem_map]
      exact ⟨f, h2, hc⟩
    exact h58 ((mem_tags_ReplaceTLVValue _ _ _ _ (by decide)).1 hm)
  have hT : (q.SetAmountWithOptions o).TLVs =
      UpdateCRC (RemoveTLVPrefix
        (RemoveTLV (ReplaceTLVValue q.TLVs TagPointOfInitiation POIMDynamic)
          TagTransactionAmount) (bytes "55")) := by
    rw [SetAmountWithOptions_TLVs q o hA, insertBeforeCountry_of_not_mem _ _ _ hno]
  have hall : ∀ f ∈ (q.SetAmountWithOptions o).TLVs,
      f.Tag ≠ TagTransactionAmount ∧ HasPrefix f.Tag (bytes "55") = false := by
    intro f hf
    rw [hT, UpdateCRC_eq] at hf
    rcases List.mem_append.1 hf with hf | hf
    · have h0 := (List.mem_filter.1 hf).1
      have h1 := List.mem_filter.1 h0
      have h2 := List.mem_filter.1 h1.1
      exact ⟨by simpa using h2.2, by simpa using h1.2⟩
    · rw [List.mem_singleton.1 hf]
      show TagCRC ≠ TagTransactionAmount ∧ HasPrefix TagCRC (bytes "55") = false
      decide
  refine ⟨hall, ?_, ?_, hT, ?_⟩
  · exact getValue_of_not_mem _ _ (fun f hf => (hall f hf).1)
  · intro hm
    exact Get_POI_SetAmountWithOptions q o hA hm
  · apply UpdateCRC_fixed
    rw [hT, UpdateCRC_idem]

set_option maxRecDepth 10000 in
/-- The witness of C18: a document with an amount and a fee but no country code; the
amount of the tests removes both and inserts nothing. -/
theorem SetAmountWithOptions_no_country_witness :
    tags ((QRIS.mk [] [⟨bytes "01", 2, bytes "11", []⟩, ⟨bytes "54", 3, bytes "100", []⟩,
      ⟨bytes "55020256", 1, bytes "5", []⟩]).SetAmountWithOptions
        ⟨15000, QRISFeeRupiah, 2000⟩).TLVs = [bytes "01", bytes "63"] ∧
    ((QRIS.mk [] [⟨bytes "01", 2, bytes "11", []⟩, ⟨bytes "54", 3, bytes "100", []⟩,
      ⟨bytes "55020256", 1, bytes "5", []⟩]).SetAmountWithOptions
        ⟨15000, QRISFeeRupiah, 2000⟩).Get TagTransactionAmount = [] :=
  ⟨by decide,
    (SetAmountWithOptions_no_country (QRIS.mk [] [⟨bytes "01", 2, bytes "11", []⟩,
      ⟨bytes "54", 3, bytes "100", []⟩, ⟨bytes "55020256", 1, bytes "5", []⟩])
      ⟨15000, QRISFeeRupiah, 2000⟩ (by decide) (by decide)).2.1⟩

/-! ## Parsed tags and the fee of the record -/

/-- Every top-level tag of a parsed field sequence has two characters. -/
theorem ParseTLV_tag_length (s : GoString) (fs : List TLV) (h : ParseTLV s = .ok fs) :
    ∀ f ∈ fs, f.Tag.length = 2 := by
  induction' hn : s.length using Nat.strong_induction_on with n ih generalizing s fs
  rcases ParseTLV_ok_inv s fs h with ⟨_, rfl⟩ | ⟨f, more, rfl, hle, _, htl, _, _, _, _, _,
    _, hR⟩
  · intro f hf
    simp at hf
  · intro g hg
    rcases List.mem_cons.1 hg with rfl | hg
    · exact htl
    · exact ih (s.drop (4 + f.Value.length)).length
        (by simp only [List.length_drop]; omega) _ more hR rfl g hg

/-- The composite fee tags have eight characters. -/
theorem fee_tag_length : TagFeeRupiah.length ≠ 2 ∧ TagFeePercent.length ≠ 2 := by decide

theorem ite_keeps_fee (data : QRISData) (c : Prop) [Decidable c]
    (a b : Except Failure QRISData)
    (ha : c → ∀ d1, a = .ok d1 → d1.FeeType = data.FeeType ∧ d1.FeeValue = data.FeeValue)
    (hb : ¬ c → ∀ d1, b = .ok d1 → d1.FeeType = data.FeeType ∧ d1.FeeValue = data.FeeValue) :
    ∀ d1, (if c then a else b) = .ok d1 →
      d1.FeeType = data.FeeType ∧ d1.FeeValue = data.FeeValue := by
  by_cases hc : c
  · rw [if_pos hc]; exact ha hc
  · rw [if_neg hc]; exact hb hc

/-- A field with a two-character tag leaves the fee of the record as it is. -/
theorem mapField_fee (data data1 : QRISData) (tlv : TLV) (h : tlv.Tag.length = 2)
    (hm : mapField data tlv = .ok data1) :
    data1.FeeType = data.FeeType ∧ data1.FeeValue = data.FeeValue := by
  have h1 : ¬ tlv.Tag = TagFeeRupiah := fun e => fee_tag_length.1 (e ▸ h)
  have h2 : ¬ tlv.Tag = TagFeePercent := fun e => fee_tag_length.2 (e ▸ h)
  revert data1
  unfold mapField
  repeat' first
    | contradiction
    | refine ite_keeps_fee data _ _ _ (fun _ => ?_) (fun _ => ?_)
  all_goals
    intro d1 hd
    first
      | (cases hd; exact ⟨rfl, rfl⟩)
      | (cases hP : ParseTLV tlv.Value with
         | ok r => rw [hP] at hd; cases hd; exact ⟨rfl, rfl⟩
         | error e =>
           rw [hP] at hd
           cases e <;> first | (cases hd; done) | (cases hd; exact ⟨rfl, rfl⟩))

theorem mapFields_fee (d : List TLV) (data data1 : QRISData)
    (h : ∀ f ∈ d, f.Tag.length = 2) (hm : mapFields data d = .ok data1) :
    data1.FeeType = data.FeeType ∧ data1.FeeValue = data.FeeValue := by
  induction d generalizing data with
  | nil =>
    simp only [mapFields, Except.ok.injEq] at hm
    rw [hm]
    exact ⟨rfl, rfl⟩
  | cons f d ih =>
    rw [mapFields] at hm
    cases hf : mapField data f with
    | error e => rw [hf] at hm; simp at hm
    | ok d1 =>
      rw [hf] at hm
      have h1 := mapField_fee data d1 f (h f (List.mem_cons_self _ _)) hf
      have h2 := ih d1 (fun g hg => h g (List.mem_cons_of_mem _ hg)) hm
      exact ⟨h2.1.trans h1.1, h2.2.trans h1.2⟩

theorem ite_returns (c : Prop) [Decidable c] (a b : Except Failure QRISData)
    (ha : c → ∃ d1, a = .ok d1) (hb : ¬ c → ∃ d1, b = .ok d1) :
    ∃ d1, (if c then a else b) = .ok d1 := by
  by_cases hc : c
  · rw [if_pos hc]; exact ha hc
  · rw [if_neg hc]; exact hb hc

/-- A field is mapped to a record unless it is tagged `"62"` and `ParseTLV` panics on its
value. -/
theorem mapField_ok (data : QRISData) (tlv : TLV)
    (h : tlv.Tag = TagAdditionalData → ParseTLV tlv.Value ≠ .error .sliceBounds) :
    ∃ data1, mapField data tlv = .ok data1 := by
  unfold mapField
  repeat' refine ite_returns _ _ _ (fun _ => ?_) (fun _ => ?_)
  all_goals
    first
      | exact ⟨_, rfl⟩
      | (have hne := h (by assumption)
         cases hP : ParseTLV tlv.Value with
         | ok r => exact ⟨_, rfl⟩
         | error e =>
           cases e with
           | invalidSegment j => exact ⟨_, rfl⟩
           | sliceBounds => exact absurd hP hne
           | outOfFuel => exact absurd hP (ParseTLV_ne_outOfFuel _))

theorem mapFields_ok (d : List TLV) (data : QRISData)
    (h : ∀ f ∈ d, f.Tag = TagAdditionalData → ParseTLV f.Value ≠ .error .sliceBounds) :
    ∃ data1, mapFields data d = .ok data1 := by
  induction d generalizing data with
  | nil => exact ⟨data, rfl⟩
  | cons f d ih =>
    obtain ⟨d1, hd1⟩ := mapField_ok data f (h f (List.mem_cons_self _ _))
    obtain ⟨d2, hd2⟩ := ih d1 (fun g hg => h g (List.mem_cons_of_mem _ hg))
    exact ⟨d2, by rw [mapFields, hd1]; exact hd2⟩

/-- For every string accepted by `NewQRISFromString`, every top-level tag of the document
has exactly two characters, so no field has the composite fee tag `"55020256"` or
`"55020357"`; whatever record `MapToStruct` returns has `FeeType = ""` and
`FeeValue = ""`, and it returns one unless a field tagged `"62"` holds a value on which
`ParseTLV` panics. -/
theorem parsed_document_has_no_fee (s : GoString) (q : QRIS)
    (h : NewQRISFromString s = .ok q) :
    (∀ f ∈ q.TLVs, f.Tag.length = 2) ∧
    (∀ f ∈ q.TLVs, f.Tag ≠ TagFeeRupiah ∧ f.Tag ≠ TagFeePercent) ∧
    (∀ data, q.MapToStruct = .ok data → data.FeeType = [] ∧ data.FeeValue = []) ∧
    ((∀ f ∈ q.TLVs, f.Tag = TagAdditionalData → ParseTLV f.Value ≠ .error .sliceBounds) →
      ∃ data, q.MapToStruct = .ok data ∧ data.FeeType = [] ∧ data.FeeValue = []) := by
  have hp : ParseTLV s = .ok q.TLVs := by
    unfold NewQRISFromString at h
    cases hP : ParseTLV s with
    | error e => rw [hP] at h; simp at h
    | ok fs =>
      rw [hP] at h
      simp only [Except.ok.injEq] at h
      rw [← h]
  have hlen := ParseTLV_tag_length s q.TLVs hp
  have hfee : ∀ data, q.MapToStruct = .ok data → data.FeeType = [] ∧ data.FeeValue = [] :=
    fun data hd => mapFields_fee q.TLVs QRISData.empty data hlen hd
  refine ⟨hlen, ?_, hfee, ?_⟩
  · intro f hf
    have := hlen f hf
    constructor
    · intro e
      rw [e] at this
      exact absurd this (by decide)
    · intro e
      rw [e] at this
      exact absurd this (by decide)
  · intro hno
    obtain ⟨data, hd⟩ := mapFields_ok q.TLVs QRISData.empty hno
    exact ⟨data, hd, hfee data hd⟩

set_option maxRecDepth 10000 in
/-- An instance: the sample document, parsed from the sample payload, maps to a record with
no fee; with the amount and fee of the tests set in memory the record has the fee type
`"rupiah"`; and parsing the serialization of that document gives the tags `"55"` and `"56"`
where the fee field was. -/
theorem parsed_document_has_no_fee_sample :
    (∃ data, sampleQRIS.MapToStruct = .ok data ∧ data.FeeType = [] ∧ data.FeeValue = []) ∧
    ((sampleQRIS.SetAmountWithOptions ⟨15000, QRISFeeRupiah, 2000⟩).MapToStruct).toOption.map
      (fun data => (data.FeeType, data.FeeValue)) = some (bytes "rupiah", bytes "2000") ∧
    (ParseTLV (sampleQRIS.SetAmountWithOptions ⟨15000, QRISFeeRupiah, 2000⟩).Serialize).toOption.map
      tags = some [bytes "00", bytes "01", bytes "26", bytes "51", bytes "52", bytes "53",
        bytes "54", bytes "55", bytes "56", bytes "58", bytes "59", bytes "60", bytes "61",
        bytes "63"] :=
  ⟨(parsed_document_has_no_fee sampleQRISRaw sampleQRIS (by rfl)).2.2.2 (by decide),
    by decide!, by decide!⟩


/-! ## C19: `MapToStruct` on a parsed document -/

/-- C19, at the input `"620400-1"`. `NewQRISFromString` accepts the string: it is one field
with the two-character tag `"62"` and the value `"00-1"`, which `ParseTLV` does not parse
(the tag is outside `"26"`..`"51"`). `MapToStruct` parses the value of a field tagged `"62"`,
and `ParseTLV("00-1")` panics on the negative length: `MapToStruct` ends by a run-time
failure and returns no record, so none with `FeeType = ""` and `FeeValue = ""`. -/
theorem MapToStruct_panics_on_parsed_document :
    NewQRISFromString (bytes "620400-1") =
      .ok ⟨bytes "620400-1", [⟨bytes "62", 4, bytes "00-1", []⟩]⟩ ∧
    ParseTLV (bytes "00-1") = .error .sliceBounds ∧
    QRIS.MapToStruct ⟨bytes "620400-1", [⟨bytes "62", 4, bytes "00-1", []⟩]⟩ =
      .error .sliceBounds := by
  refine ⟨by rfl, by rfl, by rfl⟩
/-! ## C20: setting the amount twice -/

theorem UpdateCRC_congr (a b : List TLV) (h : RemoveTLV a TagCRC = RemoveTLV b TagCRC) :
    UpdateCRC a = UpdateCRC b := by
  rw [UpdateCRC_eq, UpdateCRC_eq, h]

theorem UpdateCRC_append_crc (d : List TLV) (c : TLV) (hc : c.Tag = TagCRC) :
    UpdateCRC (d ++ [c]) = UpdateCRC d := by
  apply UpdateCRC_congr
  rw [RemoveTLV_append, RemoveTLV_cons_eq _ _ _ hc]
  simp [RemoveTLV]

theorem insertBeforeCountry_append_singleton (news d : List TLV) (c : TLV) (b : Bool)
    (hc : c.Tag ≠ TagCountryCode) :
    insertBeforeCountry news b (d ++ [c]) = insertBeforeCountry news b d ++ [c] := by
  induction d generalizing b with
  | nil =>
    rw [List.nil_append, insertBeforeCountry]
    simp [hc, insertBeforeCountry]
  | cons f d ih =>
    rw [List.cons_append, insertBeforeCountry, insertBeforeCountry]
    split
    · rw [ih]
      simp
    · rw [ih]
      simp

/-- The fields after `SetAmountWithOptions` with a positive amount, from what it keeps of
the document and what it inserts. -/
theorem SetAmountWithOptions_eq (q : QRIS) (o : QRISAmountOptions) (h : 0 < o.Amount) :
    (q.SetAmountWithOptions o).TLVs =
      UpdateCRC (insertBeforeCountry (amountFields o) false (amountBase q.TLVs)) := by
  have hcrc54 : ∀ v : GoString, (⟨TagCRC, 4, v, []⟩ : TLV).Tag ≠ TagTransactionAmount :=
    fun _ => by show TagCRC ≠ TagTransactionAmount; decide
  have hcrc58 : ∀ v : GoString, (⟨TagCRC, 4, v, []⟩ : TLV).Tag ≠ TagCountryCode :=
    fun _ => by show TagCRC ≠ TagCountryCode; decide
  have hp : ∀ (x : List TLV) (v : GoString),
      RemoveTLVPrefix (x ++ [⟨TagCRC, 4, v, []⟩]) (bytes "55") =
        RemoveTLVPrefix x (bytes "55") ++ [⟨TagCRC, 4, v, []⟩] := by
    intro x v
    have : HasPrefix TagCRC (bytes "55") = false := by decide
    simp [RemoveTLVPrefix, List.filter_append, List.filter_cons, this]
  have ht3 : ∃ v : GoString, RemoveTLVPrefix
      (RemoveTLV (ReplaceTLVValue q.TLVs TagPointOfInitiation POIMDynamic)
        TagTransactionAmount) (bytes "55") = amountBase q.TLVs ++ [⟨TagCRC, 4, v, []⟩] := by
    refine ⟨CalculateCRC (SerializeTLV (RemoveTLV
      (replaceFirst q.TLVs TagPointOfInitiation POIMDynamic) TagCRC) ++ TagCRC ++ bytes "04"),
      ?_⟩
    have hnil : RemoveTLV [] TagTransactionAmount = [] := rfl
    rw [ReplaceTLVValue, UpdateCRC_eq, RemoveTLV_append, RemoveTLV_cons_ne _ _ _ (hcrc54 _),
      hnil, hp]
    rfl
  obtain ⟨v, hv⟩ := ht3
  rw [SetAmountWithOptions_TLVs q o h, hv,
    insertBeforeCountry_append_singleton _ _ _ _ (hcrc58 v), UpdateCRC_append_crc _ _ rfl]
  rfl

theorem replaceFirst_idem (d : List TLV) (t v : GoString) :
    replaceFirst (replaceFirst d t v) t v = replaceFirst d t v := by
  induction d with
  | nil => rfl
  | cons f d ih =>
    by_cases hf : f.Tag = t
    · simp [replaceFirst, hf]
    · simp [replaceFirst, hf, ih]

theorem filter_replaceFirst (p : GoString → Bool) (d : List TLV) (t v : GoString)
    (ht : p t = true) :
    (replaceFirst d t v).filter (fun f => p f.Tag) =
      replaceFirst (d.filter (fun f => p f.Tag)) t v := by
  induction d with
  | nil => rfl
  | cons f d ih =>
    by_cases hf : f.Tag = t
    · have hpf : p f.Tag = true := by rw [hf]; exact ht
      simp [replaceFirst, List.filter_cons, hf, ht]
    · by_cases hpf : p f.Tag = true
      · simp [replaceFirst, List.filter_cons, hf, hpf, ih]
      · simp [replaceFirst, List.filter_cons, hf, hpf, ih]

theorem filter_insertBeforeCountry (p : TLV → Bool) (news d : List TLV) (b : Bool)
    (hn : ∀ f ∈ news, p f = false) :
    (insertBeforeCountry news b d).filter p = d.filter p := by
  have hnews : news.filter p = [] := by
    rw [List.filter_eq_nil_iff]
    intro f hf
    simp [hn f hf]
  induction d generalizing b with
  | nil => rfl
  | cons f d ih =>
    rw [insertBeforeCountry]
    split
    · rw [List.filter_append, hnews, List.nil_append, List.filter_cons, List.filter_cons, ih]
    · rw [List.filter_cons, List.filter_cons, ih]

/-- What `SetAmountWithOptions` keeps of a field sequence, as one filter on the tags. -/
theorem amountBase_eq (d : List TLV) :
    amountBase d =
      replaceFirst (d.filter (fun f => amountKeeps f.Tag)) TagPointOfInitiation POIMDynamic := by
  rw [← filter_replaceFirst amountKeeps d _ _ (by decide)]
  simp only [amountBase, RemoveTLVPrefix, RemoveTLV, List.filter_filter]
  congr 1
  funext f
  simp only [amountKeeps, Bool.and_comm, Bool.and_assoc]

/-- What `SetAmountWithOptions` keeps of its own result is what it kept of the document. -/
theorem amountBase_SetAmountWithOptions (d : List TLV) (o : QRISAmountOptions) :
    amountBase (UpdateCRC (insertBeforeCountry (amountFields o) false (amountBase d))) =
      amountBase d := by
  have hnews : ∀ f ∈ amountFields o, (fun f : TLV => amountKeeps f.Tag) f = false := by
    intro f hf
    rcases List.mem_cons.1 hf with rfl | hf
    · show amountKeeps TagTransactionAmount = false
      decide
    · rcases feeField_tag o f hf with e | e
      · show amountKeeps f.Tag = false
        rw [e]; decide
      · show amountKeeps f.Tag = false
        rw [e]; decide
  have hupd : ∀ z : List TLV, (UpdateCRC z).filter (fun f => amountKeeps f.Tag) =
      z.filter (fun f => amountKeeps f.Tag) := by
    intro z
    have hc : amountKeeps TagCRC = false := by decide
    rw [UpdateCRC_eq, List.filter_append, RemoveTLV, List.filter_filter]
    simp only [List.filter_cons, hc, List.filter_nil, List.append_nil, Bool.false_eq_true,
      if_false]
    congr 1
    funext f
    simp only [amountKeeps]
    cases decide (f.Tag ≠ TagCRC) <;> simp
  rw [amountBase_eq (UpdateCRC _), hupd, filter_insertBeforeCountry _ _ _ _ hnews,
    amountBase_eq d, filter_replaceFirst amountKeeps _ _ _ (by decide), List.filter_filter]
  simp only [Bool.and_self, replaceFirst_idem]

/-- C20. `SetAmountWithOptions` is last-write-wins: for every document and every two options
with positive amounts (whatever their fee type and fee value), calling it with `o1` and then
with `o2` leaves the same document, hence the same field sequence with its checksum, as
calling it with `o2` alone; in particular calling it twice with the same options equals
calling it once, and the amount and fee fields do not accumulate. -/
theorem SetAmountWithOptions_last_wins (q : QRIS) (o1 o2 : QRISAmountOptions)
    (h1 : 0 < o1.Amount) (h2 : 0 < o2.Amount) :
    (q.SetAmountWithOptions o1).SetAmountWithOptions o2 = q.SetAmountWithOptions o2 ∧
    ((q.SetAmountWithOptions o1).SetAmountWithOptions o2).TLVs =
      (q.SetAmountWithOptions o2).TLVs ∧
    (q.SetAmountWithOptions o1).SetAmountWithOptions o1 = q.SetAmountWithOptions o1 := by
  have key : ∀ (a b : QRISAmountOptions), 0 < a.Amount → 0 < b.Amount →
      (q.SetAmountWithOptions a).SetAmountWithOptions b = q.SetAmountWithOptions b := by
    intro a b ha hb
    have hT : ((q.SetAmountWithOptions a).SetAmountWithOptions b).TLVs =
        (q.SetAmountWithOptions b).TLVs := by
      rw [SetAmountWithOptions_eq _ b hb, SetAmountWithOptions_eq q a ha,
        amountBase_SetAmountWithOptions, SetAmountWithOptions_eq q b hb]
    have ha' : ¬ a.Amount ≤ 0 := by omega
    have hb' : ¬ b.Amount ≤ 0 := by omega
    have hR : ∀ (x : QRIS) (c : QRISAmountOptions), (x.SetAmountWithOptions c).Raw = x.Raw := by
      intro x c
      unfold QRIS.SetAmountWithOptions
      split <;> rfl
    have hRaw : ((q.SetAmountWithOptions a).SetAmountWithOptions b).Raw =
        (q.SetAmountWithOptions b).Raw := by
      rw [hR, hR, hR]
    cases hx : (q.SetAmountWithOptions a).SetAmountWithOptions b with
    | mk r1 t1 =>
      cases hy : q.SetAmountWithOptions b with
      | mk r2 t2 =>
        rw [hx, hy] at hT hRaw
        simp only at hT hRaw
        rw [hT, hRaw]
  exact ⟨key o1 o2 h1 h2, by rw [key o1 o2 h1 h2], key o1 o1 h1 h1⟩

set_option maxRecDepth 10000 in
/-- The witness of C20: on the sample document, the amount and fee of the tests set after
another amount with a percentage fee give the document of the amount of the tests alone,
with one amount field and one fee field. -/
theorem SetAmountWithOptions_last_wins_witness :
    (sampleQRIS.SetAmountWithOptions
        ⟨5000, QRISFeePercent, Float64.finite (5 / 2)⟩).SetAmountWithOptions
        ⟨15000, QRISFeeRupiah, 2000⟩ =
      sampleQRIS.SetAmountWithOptions ⟨15000, QRISFeeRupiah, 2000⟩ ∧
    tags (sampleQRIS.SetAmountWithOptions ⟨15000, QRISFeeRupiah, 2000⟩).TLVs =
      [bytes "00", bytes "01", bytes "26", bytes "51", bytes "52", bytes "53", bytes "54",
        bytes "55020256", bytes "58", bytes "59", bytes "60", bytes "61", bytes "63"] :=
  ⟨(SetAmountWithOptions_last_wins sampleQRIS ⟨5000, QRISFeePercent, Float64.finite (5 / 2)⟩
      ⟨15000, QRISFeeRupiah, 2000⟩ (by decide) (by decide)).1, by decide⟩

end Qris
